import Mathlib

/-!
Verification of the AppColors → SemanticColors migration script
(`Scripts/migrate-appcolors-to-semantic.py`).

Lines of text are modelled as `List Char`.  The script's regular
expressions all have one of a few very restricted shapes, which we embed
exactly:

* direct rules `AppColors\.name(?!\.)` — a literal string followed by a
  negative lookahead for a dot;
* opacity rules `AppColors\.sym\.opacity\(<val>\)` where `<val>` is the
  raw literal from `OPACITY_MAPPINGS` (its `.` is *unescaped*, hence a
  regex wildcard matching any character except a newline);
* the two reporting regexes `AppColors\.\w+\.opacity\([\d.]+\)` and
  `AppColors\.\w+(?:\.\w+)*(?:\([^)]*\))?`, embedded as deterministic
  greedy scanners (for these shapes greedy matching needs no
  backtracking).  `\w` is modelled as ASCII `[A-Za-z0-9_]`.

`re.sub` / `len(re.findall ...)` / `re.search` are modelled by a single
left-to-right, non-overlapping scan (`subst`, `countB`, `hasMatchB`).
-/

/-- One token of an embedded regular expression: a literal character or
the wildcard `.` (any character except `\n`). -/
inductive Tok where
  | lit (c : Char) : Tok
  | wild : Tok
deriving DecidableEq

/-- A pattern: a token list, plus an optional trailing negative
lookahead `(?!\.)`. -/
structure Pat where
  toks : List Tok
  negDot : Bool
deriving DecidableEq

def tokAccepts : Tok → Char → Bool
  | .lit a, c => a = c
  | .wild, c => ¬ (c = '\n')

/-- The lookahead test: `(?!\.)` succeeds iff the rest does not start
with a dot (also at end of input). -/
def lookOK (nd : Bool) (l : List Char) : Bool :=
  if nd then
    match l with
    | [] => true
    | c :: _ => ¬ (c = '.')
  else true

/-- Prefix match of a token list against the input, then the lookahead
on the remaining characters. -/
def matchTailB : List Tok → Bool → List Char → Bool
  | [], nd, l => lookOK nd l
  | _ :: _, _, [] => false
  | t :: ts, nd, c :: cs => tokAccepts t c && matchTailB ts nd cs

def matchAtB (p : Pat) (l : List Char) : Bool :=
  matchTailB p.toks p.negDot l

theorem matchTailB_length {ts : List Tok} {nd : Bool} {l : List Char}
    (h : matchTailB ts nd l = true) : ts.length ≤ l.length := by
  induction ts generalizing l with
  | nil => simp
  | cons t ts ih =>
    cases l with
    | nil => simp [matchTailB] at h
    | cons c cs =>
      simp only [matchTailB, Bool.and_eq_true] at h
      simpa [Nat.succ_le_succ_iff] using ih h.2

/-- Fuel-based worker for `subst` (structural recursion on the fuel, so
that the kernel can evaluate it; the wrapper supplies `l.length`). -/
def substF (p : Pat) (rep : List Char) : Nat → List Char → List Char
  | _, [] => []
  | 0, l => l
  | fuel + 1, c :: cs =>
    if matchAtB p (c :: cs) = true ∧ p.toks.length ≠ 0 then
      rep ++ substF p rep fuel ((c :: cs).drop p.toks.length)
    else
      c :: substF p rep fuel cs

theorem substF_fuel (p : Pat) (rep : List Char) :
    ∀ (f1 f2 : Nat) (l : List Char), l.length ≤ f1 → l.length ≤ f2 →
      substF p rep f1 l = substF p rep f2 l := by
  intro f1
  induction f1 with
  | zero =>
    intro f2 l h1 _
    have : l = [] := List.eq_nil_of_length_eq_zero (Nat.le_zero.mp h1)
    subst this
    cases f2 <;> rfl
  | succ f ih =>
    intro f2 l h1 h2
    cases l with
    | nil => cases f2 <;> rfl
    | cons c cs =>
      cases f2 with
      | zero => simp at h2
      | succ f2 =>
        simp only [substF]
        split
        · rename_i hm
          have hlen : p.toks.length ≤ (c :: cs).length := matchTailB_length hm.1
          have hdrop : ((c :: cs).drop p.toks.length).length ≤ f := by
            have hpos : 0 < p.toks.length := Nat.pos_of_ne_zero hm.2
            simp only [List.length_drop, List.length_cons]
            simp only [List.length_cons] at h1
            omega
          have hdrop2 : ((c :: cs).drop p.toks.length).length ≤ f2 := by
            have hpos : 0 < p.toks.length := Nat.pos_of_ne_zero hm.2
            simp only [List.length_drop, List.length_cons]
            simp only [List.length_cons] at h2
            omega
          rw [ih f2 _ hdrop hdrop2]
        · have hcs : cs.length ≤ f := by
            simp only [List.length_cons] at h1
            omega
          have hcs2 : cs.length ≤ f2 := by
            simp only [List.length_cons] at h2
            omega
          rw [ih f2 _ hcs hcs2]

/-- `re.sub` for one pattern: left-to-right scan, non-overlapping,
replacing every match (the lookahead is zero-width and not consumed). -/
def subst (p : Pat) (rep : List Char) (l : List Char) : List Char :=
  substF p rep l.length l

theorem subst_nil (p : Pat) (rep : List Char) : subst p rep [] = [] := rfl

theorem subst_cons_match {p : Pat} (rep : List Char) {c : Char} {cs : List Char}
    (hm : matchAtB p (c :: cs) = true) (hne : p.toks.length ≠ 0) :
    subst p rep (c :: cs) = rep ++ subst p rep ((c :: cs).drop p.toks.length) := by
  have hlen : p.toks.length ≤ (c :: cs).length := matchTailB_length hm
  have hpos : 0 < p.toks.length := Nat.pos_of_ne_zero hne
  show substF p rep (cs.length + 1) (c :: cs) = _
  simp only [substF, hm, hne, and_self, if_pos, ne_eq, not_false_iff, true_and, if_true]
  congr 1
  exact substF_fuel p rep cs.length _ _
    (by simp only [List.length_drop, List.length_cons]; omega)
    (le_refl _)

theorem subst_cons_nomatch {p : Pat} (rep : List Char) {c : Char} {cs : List Char}
    (hm : ¬ (matchAtB p (c :: cs) = true ∧ p.toks.length ≠ 0)) :
    subst p rep (c :: cs) = c :: subst p rep cs := by
  show substF p rep (cs.length + 1) (c :: cs) = _
  simp only [substF, hm, if_neg, not_false_iff]
  rfl

/-- Fuel-based worker for `countB`. -/
def countF (p : Pat) : Nat → List Char → Nat
  | _, [] => 0
  | 0, _ => 0
  | fuel + 1, c :: cs =>
    if matchAtB p (c :: cs) = true ∧ p.toks.length ≠ 0 then
      1 + countF p fuel ((c :: cs).drop p.toks.length)
    else
      countF p fuel cs

theorem countF_fuel (p : Pat) :
    ∀ (f1 f2 : Nat) (l : List Char), l.length ≤ f1 → l.length ≤ f2 →
      countF p f1 l = countF p f2 l := by
  intro f1
  induction f1 with
  | zero =>
    intro f2 l h1 _
    have : l = [] := List.eq_nil_of_length_eq_zero (Nat.le_zero.mp h1)
    subst this
    cases f2 <;> rfl
  | succ f ih =>
    intro f2 l h1 h2
    cases l with
    | nil => cases f2 <;> rfl
    | cons c cs =>
      cases f2 with
      | zero => simp at h2
      | succ f2 =>
        simp only [countF]
        split
        · rename_i hm
          have hlen : p.toks.length ≤ (c :: cs).length := matchTailB_length hm.1
          have hpos : 0 < p.toks.length := Nat.pos_of_ne_zero hm.2
          have hdrop : ((c :: cs).drop p.toks.length).length ≤ f := by
            simp only [List.length_drop, List.length_cons]
            simp only [List.length_cons] at h1
            omega
          have hdrop2 : ((c :: cs).drop p.toks.length).length ≤ f2 := by
            simp only [List.length_drop, List.length_cons]
            simp only [List.length_cons] at h2
            omega
          rw [ih f2 _ hdrop hdrop2]
        · have hcs : cs.length ≤ f := by
            simp only [List.length_cons] at h1
            omega
          have hcs2 : cs.length ≤ f2 := by
            simp only [List.length_cons] at h2
            omega
          rw [ih f2 _ hcs hcs2]

/-- `len(re.findall ...)` for one pattern: the number of matches found
by the same scan. -/
def countB (p : Pat) (l : List Char) : Nat :=
  countF p l.length l

theorem countB_nil (p : Pat) : countB p [] = 0 := rfl

theorem countB_cons_match {p : Pat} {c : Char} {cs : List Char}
    (hm : matchAtB p (c :: cs) = true) (hne : p.toks.length ≠ 0) :
    countB p (c :: cs) = 1 + countB p ((c :: cs).drop p.toks.length) := by
  have hlen : p.toks.length ≤ (c :: cs).length := matchTailB_length hm
  have hpos : 0 < p.toks.length := Nat.pos_of_ne_zero hne
  show countF p (cs.length + 1) (c :: cs) = _
  simp only [countF, hm, hne, and_self, if_pos, ne_eq, not_false_iff, true_and, if_true]
  congr 1
  exact countF_fuel p cs.length _ _
    (by simp only [List.length_drop, List.length_cons]; omega)
    (le_refl _)

theorem countB_cons_nomatch {p : Pat} {c : Char} {cs : List Char}
    (hm : ¬ (matchAtB p (c :: cs) = true ∧ p.toks.length ≠ 0)) :
    countB p (c :: cs) = countB p cs := by
  show countF p (cs.length + 1) (c :: cs) = _
  simp only [countF, hm, if_neg, not_false_iff]
  rfl

/-- `re.search` for one pattern: is there a match anywhere? -/
def hasMatchB (p : Pat) : List Char → Bool
  | [] => matchAtB p []
  | c :: cs => matchAtB p (c :: cs) || hasMatchB p cs

/-- Python's `needle in haystack` substring test. -/
def containsSub (needle : List Char) : List Char → Bool
  | [] => needle.isPrefixOf []
  | c :: cs => needle.isPrefixOf (c :: cs) || containsSub needle cs

/-- The whitespace class of Python's `str.strip`. -/
def isPySpace (c : Char) : Bool :=
  c = ' ' || c = '\t' || c = '\n' || c = '\r' ||
    c = Char.ofNat 11 || c = Char.ofNat 12

/-- Python's `str.strip()`. -/
def pyStrip (l : List Char) : List Char :=
  ((l.dropWhile isPySpace).reverse.dropWhile isPySpace).reverse

def cl (s : String) : List Char := s.toList

/-- The legacy marker `"AppColors"`. -/
def markerChars : List Char := cl "AppColors"

def semChars : List Char := cl "SemanticColors"

/- ====================================================================
CONFIGURATION (from the script, lines 39–260)
==================================================================== -/

/-- `SKIP_PATTERNS` (script lines 39–45). -/
def SKIP_PATTERNS : List (List Char) :=
  [cl "AppColors.Budget.",
   cl "AppColors.Vendor.",
   cl "AppColors.Guest.",
   cl "AppColors.Avatar.",
   cl "AppColors.Task.",]

/-- `ReplacementRule` (script lines 51–57); the regex string is embedded
as a `Pat`. -/
structure ReplacementRule where
  name : String
  pattern : Pat
  replacement : List Char
  description : String
deriving DecidableEq

/-- The pattern `AppColors\.sym(?!\.)`. -/
def directPat (sym : String) : Pat :=
  ⟨(cl ("AppColors." ++ sym)).map Tok.lit, true⟩

def mkDirect (name sym repl desc : String) : ReplacementRule :=
  ⟨name, directPat sym, cl repl, desc⟩

/-- `DIRECT_MAPPINGS` (script lines 60–226), in source order. -/
def DIRECT_MAPPINGS : List ReplacementRule :=
  [mkDirect "textPrimary" "textPrimary" "SemanticColors.textPrimary" "Primary text color",
   mkDirect "textSecondary" "textSecondary" "SemanticColors.textSecondary" "Secondary text color",
   mkDirect "textTertiary" "textTertiary" "SemanticColors.textTertiary" "Tertiary text color",
   mkDirect "primary_action" "primary" "SemanticColors.primaryAction" "Primary action color",
   mkDirect "secondary_action" "secondary" "SemanticColors.secondaryAction" "Secondary action color",
   mkDirect "accent" "accent" "SemanticColors.accent" "Accent color",
   mkDirect "success" "success" "SemanticColors.success" "Success color",
   mkDirect "warning" "warning" "SemanticColors.warning" "Warning color",
   mkDirect "error" "error" "SemanticColors.error" "Error color",
   mkDirect "info" "info" "SemanticColors.info" "Info color",
   mkDirect "errorLight" "errorLight" "SemanticColors.errorLight" "Light error color",
   mkDirect "successLight" "successLight" "SemanticColors.successLight" "Light success color",
   mkDirect "warningLight" "warningLight" "SemanticColors.warningLight" "Light warning color",
   mkDirect "infoLight" "infoLight" "SemanticColors.infoLight" "Light info color",
   mkDirect "background" "background" "SemanticColors.background" "Background color",
   mkDirect "backgroundSecondary" "backgroundSecondary" "SemanticColors.backgroundSecondary" "Secondary background color",
   mkDirect "cardBackground" "cardBackground" "SemanticColors.cardBackground" "Card background color",
   mkDirect "border" "border" "SemanticColors.border" "Border color",
   mkDirect "divider" "divider" "SemanticColors.divider" "Divider color",
   mkDirect "shadowLight" "shadowLight" "SemanticColors.shadowLight" "Light shadow color",
   mkDirect "shadow" "shadow" "SemanticColors.shadow" "Shadow color",
   mkDirect "hover" "hover" "SemanticColors.hover" "Hover state color",
   mkDirect "pressed" "pressed" "SemanticColors.pressed" "Pressed state color",
   mkDirect "disabled" "disabled" "SemanticColors.disabled" "Disabled state color",
   mkDirect "selected" "selected" "SemanticColors.selected" "Selected state color"]

/-- `OPACITY_MAPPINGS` (script lines 229–243), in dict insertion order. -/
def OPACITY_MAPPINGS : List (String × String) :=
  [("0.05", "Opacity.verySubtle"),
   ("0.08", "Opacity.verySubtle"),
   ("0.1", "Opacity.subtle"),
   ("0.15", "Opacity.subtle"),
   ("0.2", "Opacity.subtle"),
   ("0.25", "Opacity.light"),
   ("0.3", "Opacity.light"),
   ("0.4", "Opacity.light"),
   ("0.5", "Opacity.medium"),
   ("0.6", "Opacity.medium"),
   ("0.7", "Opacity.medium"),
   ("0.8", "Opacity.strong"),
   ("0.9", "Opacity.strong")]

/-- `COLORS_WITH_OPACITY` (script lines 246–260).  Note: this table is
defined in the script but never read by any function. -/
def COLORS_WITH_OPACITY : List (String × String) :=
  [("textPrimary", "SemanticColors.textPrimary"),
   ("textSecondary", "SemanticColors.textSecondary"),
   ("textTertiary", "SemanticColors.textTertiary"),
   ("primary", "SemanticColors.primaryAction"),
   ("secondary", "SemanticColors.secondaryAction"),
   ("accent", "SemanticColors.accent"),
   ("success", "SemanticColors.success"),
   ("warning", "SemanticColors.warning"),
   ("error", "SemanticColors.error"),
   ("info", "SemanticColors.info"),
   ("background", "SemanticColors.background"),
   ("border", "SemanticColors.border"),
   ("divider", "SemanticColors.divider")]

/-- The raw opacity literal as regex tokens: its `.` is unescaped in the
f-string pattern, hence a wildcard. -/
def opacityValToks (v : String) : List Tok :=
  v.toList.map (fun c => if c = '.' then Tok.wild else Tok.lit c)

/-- The pattern `AppColors\.sym\.opacity\(<val>\)`. -/
def opacityPat (sym v : String) : Pat :=
  ⟨(cl ("AppColors." ++ sym ++ ".opacity(")).map Tok.lit
     ++ opacityValToks v ++ [Tok.lit ')'], false⟩

/-- The replacement `SemanticColors.newSym.opacity(<const>)`. -/
def opacityRep (newSym const : String) : List Char :=
  cl ("SemanticColors." ++ newSym ++ ".opacity(" ++ const ++ ")")

/-- The three hard-coded loops of `apply_opacity_mapping` (script lines
302–321): `textPrimary`, then `textSecondary`, then `primary`, each over
all of `OPACITY_MAPPINGS` in order. -/
def opacityRules : List (Pat × List Char) :=
  OPACITY_MAPPINGS.map (fun pr => (opacityPat "textPrimary" pr.1, opacityRep "textPrimary" pr.2))
    ++ OPACITY_MAPPINGS.map (fun pr => (opacityPat "textSecondary" pr.1, opacityRep "textSecondary" pr.2))
    ++ OPACITY_MAPPINGS.map (fun pr => (opacityPat "primary" pr.1, opacityRep "primaryAction" pr.2))

/- ====================================================================
THE REPORTING REGEXES (greedy scanners returning a match length)
==================================================================== -/

/-- ASCII model of `\w`. -/
def isW (c : Char) : Bool :=
  ('a' ≤ c && c ≤ 'z') || ('A' ≤ c && c ≤ 'Z') || ('0' ≤ c && c ≤ '9') || c = '_'

theorem takeWhileLen_le (q : Char → Bool) (l : List Char) :
    (l.takeWhile q).length ≤ l.length := by
  induction l with
  | nil => simp
  | cons c cs ih =>
    rw [List.takeWhile_cons]
    split
    · simpa using ih
    · simp

/-- Fuel-based worker for `dotChainLen`. -/
def dotChainLenF : Nat → List Char → Nat
  | 0, _ => 0
  | _ + 1, [] => 0
  | fuel + 1, c :: rest =>
    if c = '.' then
      let w := (rest.takeWhile isW).length
      if 0 < w then (1 + w) + dotChainLenF fuel (rest.drop w) else 0
    else 0

theorem dotChainLenF_fuel :
    ∀ (f1 f2 : Nat) (l : List Char), l.length ≤ f1 → l.length ≤ f2 →
      dotChainLenF f1 l = dotChainLenF f2 l := by
  intro f1
  induction f1 with
  | zero =>
    intro f2 l h1 _
    have : l = [] := List.eq_nil_of_length_eq_zero (Nat.le_zero.mp h1)
    subst this
    cases f2 <;> rfl
  | succ f ih =>
    intro f2 l h1 h2
    cases f2 with
    | zero =>
      have : l = [] := List.eq_nil_of_length_eq_zero (Nat.le_zero.mp h2)
      subst this
      rfl
    | succ f2 =>
      cases l with
      | nil => rfl
      | cons c rest =>
        simp only [dotChainLenF]
        have hw : (rest.takeWhile isW).length ≤ rest.length := takeWhileLen_le isW rest
        simp only [List.length_cons] at h1 h2
        split
        · split
          · rw [ih f2 _ (by simp only [List.length_drop]; omega)
              (by simp only [List.length_drop]; omega)]
          · rfl
        · rfl

/-- Length consumed by `(?:\.\w+)*` (greedy). -/
def dotChainLen (l : List Char) : Nat :=
  dotChainLenF l.length l

/-- Length consumed by `(?:\([^)]*\))?` (greedy; the optional group
fails, consuming nothing, when no `)` closes it). -/
def parenOptLen (l : List Char) : Nat :=
  match l with
  | '(' :: rest =>
    let k := (rest.takeWhile (fun c => ¬ (c = ')'))).length
    match rest.drop k with
    | ')' :: _ => 1 + k + 1
    | _ => 0
  | _ => 0

/-- Match length of `AppColors\.\w+(?:\.\w+)*(?:\([^)]*\))?` at the head
of `l`, if it matches. -/
def matchR2len (l : List Char) : Option Nat :=
  if (cl "AppColors.").isPrefixOf l then
    let rest := l.drop 10
    let w := (rest.takeWhile isW).length
    if 0 < w then
      let afterW := rest.drop w
      let d := dotChainLen afterW
      some (10 + w + d + parenOptLen (afterW.drop d))
    else none
  else none

theorem matchR2len_pos {l : List Char} {n : Nat} (h : matchR2len l = some n) :
    0 < n := by
  simp only [matchR2len] at h
  split at h
  · split at h
    · simp only [Option.some.injEq] at h
      omega
    · exact absurd h (by simp)
  · exact absurd h (by simp)

/-- Fuel-based worker for `findallR2`. -/
def findallR2F : Nat → List Char → List (List Char)
  | _, [] => []
  | 0, _ => []
  | fuel + 1, c :: cs =>
    match matchR2len (c :: cs) with
    | some n => (c :: cs).take n :: findallR2F fuel ((c :: cs).drop n)
    | none => findallR2F fuel cs

theorem findallR2F_fuel :
    ∀ (f1 f2 : Nat) (l : List Char), l.length ≤ f1 → l.length ≤ f2 →
      findallR2F f1 l = findallR2F f2 l := by
  intro f1
  induction f1 with
  | zero =>
    intro f2 l h1 _
    have : l = [] := List.eq_nil_of_length_eq_zero (Nat.le_zero.mp h1)
    subst this
    cases f2 <;> rfl
  | succ f ih =>
    intro f2 l h1 h2
    cases l with
    | nil => cases f2 <;> rfl
    | cons c cs =>
      cases f2 with
      | zero => simp at h2
      | succ f2 =>
        simp only [findallR2F]
        simp only [List.length_cons] at h1 h2
        cases hm : matchR2len (c :: cs) with
        | some n =>
          have hn : 0 < n := matchR2len_pos hm
          simp only
          rw [ih f2 _ (by simp only [List.length_drop, List.length_cons]; omega)
            (by simp only [List.length_drop, List.length_cons]; omega)]
        | none =>
          simp only
          rw [ih f2 _ (by omega) (by omega)]

/-- `re.findall` for that regex: scan, collect matches, continue after
each match. -/
def findallR2 (l : List Char) : List (List Char) :=
  findallR2F l.length l

theorem findallR2_nil : findallR2 [] = [] := rfl

theorem findallR2_cons_match {c : Char} {cs : List Char} {n : Nat}
    (h : matchR2len (c :: cs) = some n) :
    findallR2 (c :: cs) = (c :: cs).take n :: findallR2 ((c :: cs).drop n) := by
  have hn : 0 < n := matchR2len_pos h
  show findallR2F (cs.length + 1) (c :: cs) = _
  simp only [findallR2F, h]
  congr 1
  exact findallR2F_fuel cs.length _ _
    (by simp only [List.length_drop, List.length_cons]; omega)
    (le_refl _)

theorem findallR2_cons_nomatch {c : Char} {cs : List Char}
    (h : matchR2len (c :: cs) = none) :
    findallR2 (c :: cs) = findallR2 cs := by
  show findallR2F (cs.length + 1) (c :: cs) = _
  simp only [findallR2F, h]
  rfl

/-- Match length of `AppColors\.\w+\.opacity\([\d.]+\)` at the head. -/
def matchR1len (l : List Char) : Option Nat :=
  if (cl "AppColors.").isPrefixOf l then
    let rest := l.drop 10
    let w := (rest.takeWhile isW).length
    if 0 < w then
      let afterW := rest.drop w
      if (cl ".opacity(").isPrefixOf afterW then
        let body := afterW.drop 9
        let k := (body.takeWhile (fun c => c = '.' || ('0' ≤ c && c ≤ '9'))).length
        if 0 < k then
          match body.drop k with
          | ')' :: _ => some (10 + w + 9 + k + 1)
          | _ => none
        else none
      else none
    else none
  else none

theorem matchR1len_pos {l : List Char} {n : Nat} (h : matchR1len l = some n) :
    0 < n := by
  simp only [matchR1len] at h
  split at h
  · split at h
    · split at h
      · split at h
        · split at h
          · simp only [Option.some.injEq] at h
            omega
          · exact absurd h (by simp)
        · exact absurd h (by simp)
      · exact absurd h (by simp)
    · exact absurd h (by simp)
  · exact absurd h (by simp)

/-- Fuel-based worker for `findallR1`. -/
def findallR1F : Nat → List Char → List (List Char)
  | _, [] => []
  | 0, _ => []
  | fuel + 1, c :: cs =>
    match matchR1len (c :: cs) with
    | some n => (c :: cs).take n :: findallR1F fuel ((c :: cs).drop n)
    | none => findallR1F fuel cs

theorem findallR1F_fuel :
    ∀ (f1 f2 : Nat) (l : List Char), l.length ≤ f1 → l.length ≤ f2 →
      findallR1F f1 l = findallR1F f2 l := by
  intro f1
  induction f1 with
  | zero =>
    intro f2 l h1 _
    have : l = [] := List.eq_nil_of_length_eq_zero (Nat.le_zero.mp h1)
    subst this
    cases f2 <;> rfl
  | succ f ih =>
    intro f2 l h1 h2
    cases l with
    | nil => cases f2 <;> rfl
    | cons c cs =>
      cases f2 with
      | zero => simp at h2
      | succ f2 =>
        simp only [findallR1F]
        simp only [List.length_cons] at h1 h2
        cases hm : matchR1len (c :: cs) with
        | some n =>
          have hn : 0 < n := matchR1len_pos hm
          simp only
          rw [ih f2 _ (by simp only [List.length_drop, List.length_cons]; omega)
            (by simp only [List.length_drop, List.length_cons]; omega)]
        | none =>
          simp only
          rw [ih f2 _ (by omega) (by omega)]

def findallR1 (l : List Char) : List (List Char) :=
  findallR1F l.length l

/- ====================================================================
MIGRATION LOGIC (script lines 266–397)
==================================================================== -/

/-- `MigrationResult` (script lines 266–272). -/
structure MigrationResult where
  file_path : String
  replacements_made : Nat
  skipped_instances : List (Nat × List Char × List Char)
  errors : List String
deriving DecidableEq

def mkSkipReason (pat : List Char) : List Char :=
  cl "Contains " ++ pat ++ cl " (domain-specific color)"

/-- `should_skip_line` (script lines 274–279): reason for the first
matching skip pattern, if any. -/
def should_skip_line (l : List Char) : Option (List Char) :=
  (SKIP_PATTERNS.find? (fun p => containsSub p l)).map mkSkipReason

/-- One iteration of the `apply_direct_mappings` loop (script lines
284–288): `matches = len(findall); if matches > 0: sub; count += matches`. -/
def directStep (s : List Char × Nat) (r : ReplacementRule) : List Char × Nat :=
  let m := countB r.pattern s.1
  if 0 < m then (subst r.pattern r.replacement s.1, s.2 + m) else s

/-- `apply_direct_mappings` (script lines 281–289). -/
def apply_direct_mappings (l : List Char) : List Char × Nat :=
  DIRECT_MAPPINGS.foldl directStep (l, 0)

/-- One iteration of an `apply_opacity_mapping` loop (script lines
303–321): `if re.search: sub; count += 1`. -/
def opacityStep (s : List Char × Nat) (r : Pat × List Char) : List Char × Nat :=
  if hasMatchB r.1 s.1 then (subst r.1 r.2 s.1, s.2 + 1) else s

/-- `apply_opacity_mapping` (script lines 291–329), including the
`unhandled` list it computes (which `migrate_line` discards). -/
def apply_opacity_mapping (l : List Char) : List Char × Nat × List (List Char) :=
  let s := opacityRules.foldl opacityStep (l, 0)
  let remaining := findallR1 s.1
  let unhandled := remaining.filter
    (fun p => !containsSub semChars s.1 || containsSub p s.1)
  (s.1, s.2, unhandled)

/-- The final phase of `migrate_line` (script lines 355–363): after both
passes produced line `l2` with `total` completed replacements, flag the
first remaining legacy occurrence, if any. -/
def migrate_tail_check (l2 : List Char) (total : Nat) (n : Nat) :
    List Char × Nat × Option (Nat × List Char × List Char) :=
  if containsSub markerChars l2 then
    match (findallR2 l2).find? (fun p => !containsSub semChars p) with
    | some p => (l2, total, some (n, pyStrip l2, cl "Unhandled pattern: " ++ p))
    | none => (l2, total, none)
  else (l2, total, none)

/-- `migrate_line` (script lines 331–363). -/
def migrate_line (l : List Char) (n : Nat) :
    List Char × Nat × Option (Nat × List Char × List Char) :=
  match should_skip_line l, containsSub markerChars l with
  | some reason, true => (l, 0, some (n, pyStrip l, reason))
  | _, false => (l, 0, none)
  | none, true =>
    migrate_tail_check (apply_opacity_mapping (apply_direct_mappings l).1).1
      ((apply_direct_mappings l).2 +
        (apply_opacity_mapping (apply_direct_mappings l).1).2.1) n

/-- The per-file loop of `migrate_file` (script lines 381–387): new
lines, total count, skip entries, numbering lines from `i`. -/
def processLines : List (List Char) → Nat →
    List (List Char) × Nat × List (Nat × List Char × List Char)
  | [], _ => ([], 0, [])
  | l :: rest, i =>
    let r := migrate_line l i
    let tailRes := processLines rest (i + 1)
    (r.1 :: tailRes.1, r.2.1 + tailRes.2.1,
     match r.2.2 with
     | some s => s :: tailRes.2.2
     | none => tailRes.2.2)

/-- `migrate_file` (script lines 365–397).  Reading the file is an
external effect, modelled by an `Except` argument; the write-back is
modelled by the second component: `some newLines` iff the script writes
the file (write errors are abstracted away as a successful write). -/
def migrate_file (path : String) (readResult : Except String (List (List Char)))
    (dry_run : Bool) : MigrationResult × Option (List (List Char)) :=
  match readResult with
  | .error e => (⟨path, 0, [], ["Failed to read file: " ++ e]⟩, none)
  | .ok lines =>
    let pr := processLines lines 1
    let result : MigrationResult := ⟨path, pr.2.1, pr.2.2, []⟩
    if ¬ dry_run ∧ 0 < result.replacements_made then (result, some pr.1)
    else (result, none)

/- ====================================================================
BASIC LEMMAS about the scanning primitives
==================================================================== -/

theorem toks_len_ne_zero {p : Pat} (h : p.toks ≠ []) : p.toks.length ≠ 0 := by
  simpa [List.length_eq_zero] using h

theorem matchAtB_nil_false {p : Pat} (h : p.toks ≠ []) : matchAtB p [] = false := by
  unfold matchAtB
  cases hp : p.toks with
  | nil => exact absurd hp h
  | cons t ts => rfl

theorem subst_cons_match1 {p : Pat} (rep : List Char) {c : Char} {cs : List Char}
    (hne : p.toks ≠ []) (hm : matchAtB p (c :: cs) = true) :
    subst p rep (c :: cs) = rep ++ subst p rep ((c :: cs).drop p.toks.length) :=
  subst_cons_match rep hm (toks_len_ne_zero hne)

theorem subst_cons_nomatch1 {p : Pat} (rep : List Char) {c : Char} {cs : List Char}
    (hm : matchAtB p (c :: cs) = false) :
    subst p rep (c :: cs) = c :: subst p rep cs :=
  subst_cons_nomatch rep (by simp [hm])

theorem countB_cons_match1 {p : Pat} {c : Char} {cs : List Char}
    (hne : p.toks ≠ []) (hm : matchAtB p (c :: cs) = true) :
    countB p (c :: cs) = 1 + countB p ((c :: cs).drop p.toks.length) :=
  countB_cons_match hm (toks_len_ne_zero hne)

theorem countB_cons_nomatch1 {p : Pat} {c : Char} {cs : List Char}
    (hm : matchAtB p (c :: cs) = false) :
    countB p (c :: cs) = countB p cs :=
  countB_cons_nomatch (by simp [hm])

theorem hasMatchB_eq_false_iff {p : Pat} {l : List Char} :
    hasMatchB p l = false ↔ ∀ i, matchAtB p (l.drop i) = false := by
  induction l with
  | nil =>
    simp only [hasMatchB, List.drop_nil]
    exact ⟨fun h i => h, fun h => h 0⟩
  | cons c cs ih =>
    simp only [hasMatchB, Bool.or_eq_false_iff]
    constructor
    · rintro ⟨h0, hrest⟩ i
      cases i with
      | zero => exact h0
      | succ j => exact ih.mp hrest j
    · intro h
      exact ⟨h 0, ih.mpr fun j => h (j + 1)⟩

theorem hasMatchB_of_matchAt_drop {p : Pat} {l : List Char} {i : Nat}
    (h : matchAtB p (l.drop i) = true) : hasMatchB p l = true := by
  by_contra hc
  have := hasMatchB_eq_false_iff.mp (Bool.eq_false_iff.mpr hc) i
  rw [this] at h
  exact Bool.noConfusion h

theorem hasMatchB_cons_tail {p : Pat} {c : Char} {cs : List Char}
    (h : hasMatchB p cs = true) : hasMatchB p (c :: cs) = true := by
  simp only [hasMatchB, Bool.or_eq_true]
  exact Or.inr h

theorem hasMatchB_drop_false {p : Pat} {l : List Char} (k : Nat)
    (h : hasMatchB p l = false) : hasMatchB p (l.drop k) = false := by
  rw [hasMatchB_eq_false_iff] at h ⊢
  intro i
  rw [List.drop_drop]
  have := h (i + k)
  rwa [Nat.add_comm i k] at this

theorem hasMatchB_append_right {p : Pat} {a b : List Char}
    (h : hasMatchB p b = true) : hasMatchB p (a ++ b) = true := by
  induction a with
  | nil => simpa using h
  | cons c a ih => exact hasMatchB_cons_tail ih

theorem subst_of_not_hasMatch {p : Pat} {rep l : List Char}
    (h : hasMatchB p l = false) : subst p rep l = l := by
  induction l with
  | nil => rfl
  | cons c cs ih =>
    simp only [hasMatchB, Bool.or_eq_false_iff] at h
    rw [subst_cons_nomatch1 rep h.1, ih h.2]

theorem countB_of_not_hasMatch {p : Pat} {l : List Char}
    (h : hasMatchB p l = false) : countB p l = 0 := by
  induction l with
  | nil => rfl
  | cons c cs ih =>
    simp only [hasMatchB, Bool.or_eq_false_iff] at h
    rw [countB_cons_nomatch1 h.1]
    exact ih h.2

/- ====================================================================
COMPATIBILITY: can a pattern possibly match here?
==================================================================== -/

/-- Truncated compatibility of a token list with the available
characters: `false` means a definite mismatch occurs within the
available characters, so no continuation can produce a match. -/
def compatCB : List Tok → List Char → Bool
  | [], _ => true
  | _ :: _, [] => true
  | t :: ts, c :: cs => tokAccepts t c && compatCB ts cs

/-- Token-level truncated compatibility: `false` means two literal
tokens disagree within the common length. -/
def tokCompat : Tok → Tok → Bool
  | .lit a, .lit b => a = b
  | _, _ => true

def compatTT : List Tok → List Tok → Bool
  | [], _ => true
  | _ :: _, [] => true
  | t :: ts, u :: us => tokCompat t u && compatTT ts us

theorem compatCB_of_matchTail_append {ts : List Tok} {nd : Bool} {a b : List Char}
    (h : matchTailB ts nd (a ++ b) = true) : compatCB ts a = true := by
  induction ts generalizing a b with
  | nil => cases a <;> rfl
  | cons t ts ih =>
    cases a with
    | nil => rfl
    | cons c a =>
      simp only [List.cons_append, matchTailB, Bool.and_eq_true] at h
      simp only [compatCB, Bool.and_eq_true]
      exact ⟨h.1, ih h.2⟩

theorem compatCB_of_matchTail {ts : List Tok} {nd : Bool} {l : List Char}
    (h : matchTailB ts nd l = true) : compatCB ts l = true := by
  have : matchTailB ts nd (l ++ []) = true := by simpa using h
  exact compatCB_of_matchTail_append this

theorem compatCB_append_false {ts : List Tok} {a x : List Char}
    (h : compatCB ts a = false) : compatCB ts (a ++ x) = false := by
  induction ts generalizing a with
  | nil => simp [compatCB] at h
  | cons t ts ih =>
    cases a with
    | nil => simp [compatCB] at h
    | cons c a =>
      simp only [compatCB, Bool.and_eq_false_iff] at h
      simp only [List.cons_append, compatCB, Bool.and_eq_false_iff]
      cases h with
      | inl h => exact Or.inl h
      | inr h => exact Or.inr (ih h)

theorem compatCB_prefix_false {t1 t2 : List Tok} {cs : List Char}
    (h : compatCB t1 cs = false) : compatCB (t1 ++ t2) cs = false := by
  induction t1 generalizing cs with
  | nil => simp [compatCB] at h
  | cons t ts ih =>
    cases cs with
    | nil => simp [compatCB] at h
    | cons c cs =>
      simp only [compatCB, Bool.and_eq_false_iff] at h
      simp only [List.cons_append, compatCB, Bool.and_eq_false_iff]
      cases h with
      | inl h => exact Or.inl h
      | inr h => exact Or.inr (ih h)

theorem compatTT_prefix_false {t1 t2 u : List Tok}
    (h : compatTT t1 u = false) : compatTT (t1 ++ t2) u = false := by
  induction t1 generalizing u with
  | nil => simp [compatTT] at h
  | cons t ts ih =>
    cases u with
    | nil => simp [compatTT] at h
    | cons v us =>
      simp only [compatTT, Bool.and_eq_false_iff] at h
      simp only [List.cons_append, compatTT, Bool.and_eq_false_iff]
      cases h with
      | inl h => exact Or.inl h
      | inr h => exact Or.inr (ih h)

/-- Bridge lemma: if the characters of `l` instantiate the token list
`tsq` (via a match) and `tsp` is character-compatible with `l`, then
`tsp` is token-compatible with `tsq`. -/
theorem compatTT_of_instance {tsp tsq : List Tok} {nd : Bool} {l : List Char}
    (hq : matchTailB tsq nd l = true) (hp : compatCB tsp l = true) :
    compatTT tsp tsq = true := by
  induction tsp generalizing tsq l with
  | nil => rfl
  | cons t ts ih =>
    cases tsq with
    | nil => rfl
    | cons u us =>
      cases l with
      | nil => simp [matchTailB] at hq
      | cons c cs =>
        simp only [matchTailB, Bool.and_eq_true] at hq
        simp only [compatCB, Bool.and_eq_true] at hp
        simp only [compatTT, Bool.and_eq_true]
        refine ⟨?_, ih hq.2 hp.2⟩
        cases t with
        | wild => rfl
        | lit a =>
          cases u with
          | wild => rfl
          | lit b =>
            simp only [tokAccepts, decide_eq_true_eq] at hq hp
            simp only [tokCompat, decide_eq_true_eq]
            rw [hp.1, hq.1]

/- ====================================================================
SPLIT LEMMAS: the scan leaves a match-free prefix untouched
==================================================================== -/

theorem subst_append_nomatch {p : Pat} {rep : List Char} {a b : List Char}
    (h : ∀ j, j < a.length → matchAtB p ((a ++ b).drop j) = false) :
    subst p rep (a ++ b) = a ++ subst p rep b := by
  induction a with
  | nil => rfl
  | cons c a ih =>
    have h0 : matchAtB p (c :: (a ++ b)) = false := by
      have := h 0 (by simp)
      simpa using this
    rw [List.cons_append, subst_cons_nomatch1 rep h0]
    rw [List.cons_append]
    congr 1
    exact ih (fun j hj => by
      have := h (j + 1) (by simp only [List.length_cons]; omega)
      simpa using this)

theorem countB_append_nomatch {p : Pat} {a b : List Char}
    (h : ∀ j, j < a.length → matchAtB p ((a ++ b).drop j) = false) :
    countB p (a ++ b) = countB p b := by
  induction a with
  | nil => rfl
  | cons c a ih =>
    have h0 : matchAtB p (c :: (a ++ b)) = false := by
      have := h 0 (by simp)
      simpa using this
    rw [List.cons_append, countB_cons_nomatch1 h0]
    exact ih (fun j hj => by
      have := h (j + 1) (by simp only [List.length_cons]; omega)
      simpa using this)

theorem hasMatchB_append_nomatch {p : Pat} {a b : List Char}
    (h : ∀ j, j < a.length → matchAtB p ((a ++ b).drop j) = false) :
    hasMatchB p (a ++ b) = hasMatchB p b := by
  induction a with
  | nil => rfl
  | cons c a ih =>
    have h0 : matchAtB p (c :: (a ++ b)) = false := by
      have := h 0 (by simp)
      simpa using this
    rw [List.cons_append]
    simp only [hasMatchB, h0, Bool.false_or]
    exact ih (fun j hj => by
      have := h (j + 1) (by simp only [List.length_cons]; omega)
      simpa using this)

/- ====================================================================
MATCH HELPER LEMMAS
==================================================================== -/

/-- A match instantiates its span: dropping `j ≤ |ts|` characters and
`j` tokens preserves the match. -/
theorem matchTailB_drop {ts : List Tok} {nd : Bool} {l : List Char} {j : Nat}
    (h : matchTailB ts nd l = true) (hj : j ≤ ts.length) :
    matchTailB (ts.drop j) nd (l.drop j) = true := by
  induction j generalizing ts l with
  | zero => simpa using h
  | succ j ih =>
    cases ts with
    | nil => simp at hj
    | cons t ts =>
      cases l with
      | nil => simp [matchTailB] at h
      | cons c cs =>
        simp only [matchTailB, Bool.and_eq_true] at h
        simp only [List.length_cons, Nat.succ_le_succ_iff] at hj
        simpa using ih h.2 hj

theorem lookOK_cons_eq (nd : Bool) (c : Char) (x y : List Char) :
    lookOK nd (c :: x) = lookOK nd (c :: y) := by
  cases nd <;> rfl

/-- With no lookahead, only the matched span matters. -/
theorem matchTailB_take_append {ts : List Tok} {l : List Char} (x : List Char)
    (h : matchTailB ts false l = true) :
    matchTailB ts false (l.take ts.length ++ x) = true := by
  induction ts generalizing l with
  | nil => simp [matchTailB, lookOK]
  | cons t ts ih =>
    cases l with
    | nil => simp [matchTailB] at h
    | cons c cs =>
      simp only [matchTailB, Bool.and_eq_true] at h
      simp only [List.length_cons, List.take_succ_cons, List.cons_append,
        matchTailB, Bool.and_eq_true]
      exact ⟨h.1, ih h.2⟩

theorem drop_succ_of_drop_cons {α : Type} {l : List α} {k : Nat} {t : α} {ts : List α}
    (h : l.drop k = t :: ts) : l.drop (k + 1) = ts := by
  have : l.drop (k + 1) = (l.drop k).drop 1 := by
    rw [List.drop_drop]
  rw [this, h]
  rfl

/-- THE TRANSPORT LEMMA.  If a suffix of pattern `p` matches somewhere
in the output of `subst q qrep l` starting at a scan boundary, it
already matched the input there.  Conditions: `q`'s pattern starts with
the literal `A`, the replacement starts with `Sem`, and no suffix of
`p`'s pattern is character-compatible with `Sem`. -/
theorem matchTail_transport {q : Pat} {qrep : List Char} {p : Pat}
    (hqne : q.toks ≠ [])
    (hqhead : ∃ qs, q.toks = Tok.lit 'A' :: qs)
    (hqrep : ∃ r0, qrep = 'S' :: 'e' :: 'm' :: r0)
    (hpSem : ∀ k, k < p.toks.length → compatCB (p.toks.drop k) (cl "Sem") = false) :
    ∀ (l : List Char) (k : Nat) (nd : Bool), k ≤ p.toks.length →
      matchTailB (p.toks.drop k) nd (subst q qrep l) = true →
      matchTailB (p.toks.drop k) nd l = true := by
  intro l
  induction l with
  | nil => intro k nd _ h; exact h
  | cons c cs ih =>
    intro k nd hk h
    by_cases hm : matchAtB q (c :: cs) = true
    · rw [subst_cons_match1 qrep hqne hm] at h
      by_cases hklt : k < p.toks.length
      · exfalso
        have hcompat : compatCB (p.toks.drop k) qrep = true :=
          compatCB_of_matchTail_append h
        obtain ⟨r0, hr0⟩ := hqrep
        have hfalse : compatCB (p.toks.drop k) qrep = false := by
          rw [hr0]
          have : ('S' :: 'e' :: 'm' :: r0 : List Char) = cl "Sem" ++ r0 := by rfl
          rw [this]
          exact compatCB_append_false (hpSem k hklt)
        rw [hcompat] at hfalse
        exact Bool.noConfusion hfalse
      · have hke : k = p.toks.length := Nat.le_antisymm hk (Nat.not_lt.mp hklt)
        have hnil : p.toks.drop k = [] := by
          rw [hke, List.drop_length]
        rw [hnil] at h ⊢
        obtain ⟨qs, hq⟩ := hqhead
        have hc : c = 'A' := by
          unfold matchAtB at hm
          rw [hq] at hm
          simp only [matchTailB, Bool.and_eq_true, tokAccepts,
            decide_eq_true_eq] at hm
          exact hm.1.symm
        subst hc
        simp only [matchTailB] at h ⊢
        cases nd with
        | false => rfl
        | true => simp [lookOK]
    · rw [subst_cons_nomatch1 qrep (Bool.eq_false_iff.mpr hm)] at h
      cases hts : p.toks.drop k with
      | nil =>
        rw [hts] at h
        simp only [matchTailB] at h ⊢
        rw [lookOK_cons_eq nd c cs (subst q qrep cs)]
        exact h
      | cons t ts =>
        have hklt : k < p.toks.length := by
          by_contra hc
          have hdn : p.toks.drop k = [] := by
            rw [Nat.le_antisymm hk (Nat.not_lt.mp hc), List.drop_length]
          rw [hdn] at hts
          exact List.noConfusion hts
        have hts1 : p.toks.drop (k + 1) = ts := drop_succ_of_drop_cons hts
        rw [hts] at h
        simp only [matchTailB, Bool.and_eq_true] at h ⊢
        refine ⟨h.1, ?_⟩
        have htr := ih (k + 1) nd (by omega) (by rw [hts1]; exact h.2)
        rw [hts1] at htr
        exact htr

/-- LEMMA A: after `re.sub`, the substituted pattern no longer matches
anywhere (given the safety conditions on the pattern and replacement). -/
theorem subst_self_clear {q : Pat} {qrep : List Char}
    (hqne : q.toks ≠ [])
    (hqhead : ∃ qs, q.toks = Tok.lit 'A' :: qs)
    (hqrep : ∃ r0, qrep = 'S' :: 'e' :: 'm' :: r0)
    (hqSem : ∀ k, k < q.toks.length → compatCB (q.toks.drop k) (cl "Sem") = false)
    (hrepNoQ : ∀ j, j < qrep.length → compatCB q.toks (qrep.drop j) = false) :
    ∀ l, hasMatchB q (subst q qrep l) = false := by
  suffices main : ∀ (n : Nat) (l : List Char), l.length ≤ n →
      hasMatchB q (subst q qrep l) = false by
    intro l
    exact main l.length l (le_refl _)
  intro n
  induction n with
  | zero =>
    intro l h
    rw [List.eq_nil_of_length_eq_zero (Nat.le_zero.mp h), subst_nil]
    simp [hasMatchB, matchAtB_nil_false hqne]
  | succ n ih =>
    intro l hl
    cases l with
    | nil =>
      rw [subst_nil]
      simp [hasMatchB, matchAtB_nil_false hqne]
    | cons c cs =>
      by_cases hm : matchAtB q (c :: cs) = true
      · rw [subst_cons_match1 qrep hqne hm]
        have hnomatch : ∀ j, j < qrep.length →
            matchAtB q ((qrep ++ subst q qrep ((c :: cs).drop q.toks.length)).drop j)
              = false := by
          intro j hj
          rw [List.drop_append_of_le_length (le_of_lt hj)]
          by_contra hcon
          rw [Bool.not_eq_false] at hcon
          simp only [matchAtB] at hcon
          have h1 : compatCB q.toks (qrep.drop j) = true :=
            compatCB_of_matchTail_append hcon
          rw [hrepNoQ j hj] at h1
          exact Bool.noConfusion h1
        rw [hasMatchB_append_nomatch hnomatch]
        apply ih
        have hq1 : 1 ≤ q.toks.length := by
          cases hq : q.toks with
          | nil => exact absurd hq hqne
          | cons t ts => simp
        simp only [List.length_drop, List.length_cons]
        simp only [List.length_cons] at hl
        omega
      · have hsubst : subst q qrep (c :: cs) = c :: subst q qrep cs :=
          subst_cons_nomatch1 qrep (Bool.eq_false_iff.mpr hm)
        rw [hsubst]
        simp only [hasMatchB, Bool.or_eq_false_iff]
        constructor
        · by_contra hcon
          rw [Bool.not_eq_false] at hcon
          rw [← hsubst] at hcon
          have htr := matchTail_transport (p := q) hqne hqhead hqrep hqSem
            (c :: cs) 0 q.negDot (Nat.zero_le _)
            (by simpa [matchAtB] using hcon)
          simp only [List.drop_zero] at htr
          exact hm htr
        · apply ih
          simp only [List.length_cons] at hl
          omega

/-- LEMMA B: `re.sub` with rule `q` cannot create a match of a
pattern `p` that did not match before. -/
theorem subst_preserve_nomatch {p q : Pat} {qrep : List Char}
    (hqne : q.toks ≠ [])
    (hqhead : ∃ qs, q.toks = Tok.lit 'A' :: qs)
    (hqrep : ∃ r0, qrep = 'S' :: 'e' :: 'm' :: r0)
    (hpSem : ∀ k, k < p.toks.length → compatCB (p.toks.drop k) (cl "Sem") = false)
    (hrepNoP : ∀ j, j < qrep.length → compatCB p.toks (qrep.drop j) = false) :
    ∀ l, hasMatchB p l = false → hasMatchB p (subst q qrep l) = false := by
  suffices main : ∀ (n : Nat) (l : List Char), l.length ≤ n →
      hasMatchB p l = false → hasMatchB p (subst q qrep l) = false by
    intro l
    exact main l.length l (le_refl _)
  intro n
  induction n with
  | zero =>
    intro l hlen h
    rw [List.eq_nil_of_length_eq_zero (Nat.le_zero.mp hlen), subst_nil]
    rw [List.eq_nil_of_length_eq_zero (Nat.le_zero.mp hlen)] at h
    exact h
  | succ n ih =>
    intro l hl h
    cases l with
    | nil => rw [subst_nil]; exact h
    | cons c cs =>
      simp only [hasMatchB, Bool.or_eq_false_iff] at h
      by_cases hm : matchAtB q (c :: cs) = true
      · rw [subst_cons_match1 qrep hqne hm]
        have hnomatch : ∀ j, j < qrep.length →
            matchAtB p ((qrep ++ subst q qrep ((c :: cs).drop q.toks.length)).drop j)
              = false := by
          intro j hj
          rw [List.drop_append_of_le_length (le_of_lt hj)]
          by_contra hcon
          rw [Bool.not_eq_false] at hcon
          simp only [matchAtB] at hcon
          have h1 : compatCB p.toks (qrep.drop j) = true :=
            compatCB_of_matchTail_append hcon
          rw [hrepNoP j hj] at h1
          exact Bool.noConfusion h1
        rw [hasMatchB_append_nomatch hnomatch]
        apply ih
        · have hq1 : 1 ≤ q.toks.length := by
            cases hq : q.toks with
            | nil => exact absurd hq hqne
            | cons t ts => simp
          simp only [List.length_drop, List.length_cons]
          simp only [List.length_cons] at hl
          omega
        · exact hasMatchB_drop_false q.toks.length
            (by simp only [hasMatchB, Bool.or_eq_false_iff]; exact h)
      · have hsubst : subst q qrep (c :: cs) = c :: subst q qrep cs :=
          subst_cons_nomatch1 qrep (Bool.eq_false_iff.mpr hm)
        rw [hsubst]
        simp only [hasMatchB, Bool.or_eq_false_iff]
        constructor
        · by_contra hcon
          rw [Bool.not_eq_false] at hcon
          rw [← hsubst] at hcon
          have htr := matchTail_transport (p := p) hqne hqhead hqrep hpSem
            (c :: cs) 0 p.negDot (Nat.zero_le _)
            (by simpa [matchAtB] using hcon)
          simp only [List.drop_zero] at htr
          have hAt : matchAtB p (c :: cs) = true := htr
          rw [h.1] at hAt
          exact Bool.noConfusion hAt
        · apply ih cs ?_ h.2
          simp only [List.length_cons] at hl
          omega

/- ====================================================================
THE RULE PIPELINE AND ITS SAFETY CONDITIONS
==================================================================== -/

/-- A rewrite rule: a pattern and its replacement text. -/
structure MRule where
  pat : Pat
  rep : List Char
deriving DecidableEq

def markerToks : List Tok := markerChars.map Tok.lit

/-- Decidable safety conditions of a rule, checked once over the whole
table: the pattern starts with the literal marker `AppColors`, no
pattern suffix is character-compatible with `Sem`, the replacement
starts with `Sem`, and the marker is not character-compatible anywhere
inside the replacement. -/
def ruleSafeB (r : MRule) : Bool :=
  markerToks.isPrefixOf r.pat.toks
    && ((List.range r.pat.toks.length).all fun k =>
          !compatCB (r.pat.toks.drop k) (cl "Sem"))
    && (cl "Sem").isPrefixOf r.rep
    && ((List.range r.rep.length).all fun j =>
          !compatCB markerToks (r.rep.drop j))

theorem ruleSafe_marker {r : MRule} (h : ruleSafeB r = true) :
    ∃ rest, r.pat.toks = markerToks ++ rest := by
  simp only [ruleSafeB, Bool.and_eq_true] at h
  have := h.1.1.1
  rw [ List.isPrefixOf_iff_prefix] at this
  obtain ⟨t, ht⟩ := this
  exact ⟨t, ht.symm⟩

theorem ruleSafe_toks_ne {r : MRule} (h : ruleSafeB r = true) :
    r.pat.toks ≠ [] := by
  obtain ⟨rest, hrest⟩ := ruleSafe_marker h
  rw [hrest]
  simp [markerToks, markerChars, cl]

theorem ruleSafe_head {r : MRule} (h : ruleSafeB r = true) :
    ∃ qs, r.pat.toks = Tok.lit 'A' :: qs := by
  obtain ⟨rest, hrest⟩ := ruleSafe_marker h
  refine ⟨(cl "ppColors").map Tok.lit ++ rest, ?_⟩
  rw [hrest]
  rfl

theorem ruleSafe_repSem {r : MRule} (h : ruleSafeB r = true) :
    ∃ r0, r.rep = 'S' :: 'e' :: 'm' :: r0 := by
  simp only [ruleSafeB, Bool.and_eq_true] at h
  have := h.1.2
  rw [ List.isPrefixOf_iff_prefix] at this
  obtain ⟨t, ht⟩ := this
  exact ⟨t, ht.symm⟩

theorem ruleSafe_patSem {r : MRule} (h : ruleSafeB r = true) :
    ∀ k, k < r.pat.toks.length → compatCB (r.pat.toks.drop k) (cl "Sem") = false := by
  simp only [ruleSafeB, Bool.and_eq_true] at h
  have := h.1.1.2
  rw [List.all_eq_true] at this
  intro k hk
  have hb := this k (List.mem_range.mpr hk)
  simpa using hb

theorem ruleSafe_repNoMarker {r : MRule} (h : ruleSafeB r = true) :
    ∀ j, j < r.rep.length → compatCB markerToks (r.rep.drop j) = false := by
  simp only [ruleSafeB, Bool.and_eq_true] at h
  have := h.2
  rw [List.all_eq_true] at this
  intro j hj
  have hb := this j (List.mem_range.mpr hj)
  simpa using hb

/-- The cross-rule condition of Lemma B: pattern `p` of a safe rule is
nowhere character-compatible inside the replacement of a safe rule `q`. -/
theorem ruleSafe_cross {p q : MRule} (hp : ruleSafeB p = true)
    (hq : ruleSafeB q = true) :
    ∀ j, j < q.rep.length → compatCB p.pat.toks (q.rep.drop j) = false := by
  intro j hj
  obtain ⟨rest, hrest⟩ := ruleSafe_marker hp
  rw [hrest]
  exact compatCB_prefix_false (ruleSafe_repNoMarker hq j hj)

/-- One pipeline step: substitute if the pattern occurs (shared shape of
the direct-mapping and opacity-mapping loops, as far as the evolution of
the line is concerned). -/
def stepLine (l : List Char) (r : MRule) : List Char :=
  if hasMatchB r.pat l then subst r.pat r.rep l else l

def runRules (rs : List MRule) (l : List Char) : List Char :=
  rs.foldl stepLine l

theorem runRules_nil (l : List Char) : runRules [] l = l := rfl

theorem runRules_cons (r : MRule) (rs : List MRule) (l : List Char) :
    runRules (r :: rs) l = runRules rs (stepLine l r) := rfl

theorem runRules_append (rs1 rs2 : List MRule) (l : List Char) :
    runRules (rs1 ++ rs2) l = runRules rs2 (runRules rs1 l) := by
  simp [runRules, List.foldl_append]

theorem stepLine_clear {r : MRule} (hr : ruleSafeB r = true) (l : List Char) :
    hasMatchB r.pat (stepLine l r) = false := by
  unfold stepLine
  by_cases hm : hasMatchB r.pat l = true
  · rw [if_pos hm]
    exact subst_self_clear (ruleSafe_toks_ne hr) (ruleSafe_head hr)
      (ruleSafe_repSem hr) (ruleSafe_patSem hr)
      (fun j hj => ruleSafe_cross hr hr j hj) l
  · rw [if_neg hm]
    exact Bool.eq_false_iff.mpr hm

theorem stepLine_preserve {p q : MRule} (hp : ruleSafeB p = true)
    (hq : ruleSafeB q = true) {l : List Char}
    (h : hasMatchB p.pat l = false) :
    hasMatchB p.pat (stepLine l q) = false := by
  unfold stepLine
  by_cases hm : hasMatchB q.pat l = true
  · rw [if_pos hm]
    exact subst_preserve_nomatch (ruleSafe_toks_ne hq) (ruleSafe_head hq)
      (ruleSafe_repSem hq) (ruleSafe_patSem hp)
      (fun j hj => ruleSafe_cross hp hq j hj) l h
  · rw [if_neg hm]
    exact h

theorem runRules_preserve {p : MRule} (hp : ruleSafeB p = true) :
    ∀ (rs : List MRule), (∀ r ∈ rs, ruleSafeB r = true) →
      ∀ l, hasMatchB p.pat l = false → hasMatchB p.pat (runRules rs l) = false := by
  intro rs
  induction rs with
  | nil => intro _ l h; exact h
  | cons q rest ih =>
    intro hsafe l h
    rw [runRules_cons]
    exact ih (fun r hr => hsafe r (List.mem_cons_of_mem q hr)) _
      (stepLine_preserve hp (hsafe q (List.mem_cons_self q rest)) h)

/-- CLEARING THEOREM: after running a list of safe rules, none of their
patterns matches the resulting line. -/
theorem runRules_clear :
    ∀ (rs : List MRule), (∀ r ∈ rs, ruleSafeB r = true) →
      ∀ (l : List Char) (r : MRule), r ∈ rs →
        hasMatchB r.pat (runRules rs l) = false := by
  intro rs
  induction rs with
  | nil => intro _ l r hr; exact absurd hr (List.not_mem_nil r)
  | cons q rest ih =>
    intro hsafe l r hr
    rw [runRules_cons]
    rcases List.mem_cons.mp hr with hq | hrest
    · subst hq
      exact runRules_preserve (hsafe r (List.mem_cons_self r rest)) rest
        (fun r2 h2 => hsafe r2 (List.mem_cons_of_mem _ h2)) _
        (stepLine_clear (hsafe r (List.mem_cons_self r rest)) l)
    · exact ih (fun r2 h2 => hsafe r2 (List.mem_cons_of_mem _ h2)) _ r hrest

set_option maxRecDepth 1000000

def directMRules : List MRule :=
  DIRECT_MAPPINGS.map (fun r => ⟨r.pattern, r.replacement⟩)

def opacityMRules : List MRule :=
  opacityRules.map (fun r => ⟨r.1, r.2⟩)

def allMRules : List MRule := directMRules ++ opacityMRules

theorem allMRules_safe : ∀ r ∈ allMRules, ruleSafeB r = true := by
  have h : allMRules.all ruleSafeB = true := by decide
  rw [List.all_eq_true] at h
  exact h

theorem mem_allMRules_direct {r : ReplacementRule} (h : r ∈ DIRECT_MAPPINGS) :
    (⟨r.pattern, r.replacement⟩ : MRule) ∈ allMRules :=
  List.mem_append_left _ (List.mem_map_of_mem _ h)

theorem mem_allMRules_opacity {r : Pat × List Char} (h : r ∈ opacityRules) :
    (⟨r.1, r.2⟩ : MRule) ∈ allMRules :=
  List.mem_append_right _ (List.mem_map_of_mem _ h)

theorem direct_toks_ne {r : ReplacementRule} (h : r ∈ DIRECT_MAPPINGS) :
    r.pattern.toks ≠ [] :=
  ruleSafe_toks_ne (allMRules_safe _ (mem_allMRules_direct h))

theorem countB_pos_of_hasMatch {p : Pat} (hne : p.toks ≠ []) :
    ∀ l, hasMatchB p l = true → 0 < countB p l := by
  intro l
  induction l with
  | nil =>
    intro h
    rw [show hasMatchB p [] = matchAtB p [] from rfl, matchAtB_nil_false hne] at h
    exact Bool.noConfusion h
  | cons c cs ih =>
    intro h
    by_cases hm : matchAtB p (c :: cs) = true
    · rw [countB_cons_match1 hne hm]
      omega
    · rw [countB_cons_nomatch1 (Bool.eq_false_iff.mpr hm)]
      simp only [hasMatchB, Bool.or_eq_true] at h
      rcases h with h | h
      · exact absurd h hm
      · exact ih h

theorem directStep_fst {r : ReplacementRule} (hne : r.pattern.toks ≠ [])
    (s : List Char × Nat) :
    (directStep s r).1 = stepLine s.1 ⟨r.pattern, r.replacement⟩ := by
  unfold directStep stepLine
  by_cases hm : hasMatchB r.pattern s.1 = true
  · have hpos : 0 < countB r.pattern s.1 := countB_pos_of_hasMatch hne _ hm
    rw [if_pos hpos, if_pos hm]
  · have h0 : countB r.pattern s.1 = 0 :=
      countB_of_not_hasMatch (Bool.eq_false_iff.mpr hm)
    rw [h0, if_neg (by omega), if_neg hm]

theorem foldl_directStep_fst :
    ∀ (rs : List ReplacementRule) (s : List Char × Nat),
      (∀ r ∈ rs, r.pattern.toks ≠ []) →
      (rs.foldl directStep s).1 =
        runRules (rs.map fun r => (⟨r.pattern, r.replacement⟩ : MRule)) s.1 := by
  intro rs
  induction rs with
  | nil => intro s _; rfl
  | cons r rest ih =>
    intro s hne
    have h1 := ih (directStep s r) (fun r2 h2 => hne r2 (List.mem_cons_of_mem r h2))
    simp only [List.foldl_cons, List.map_cons]
    rw [h1, runRules_cons, directStep_fst (hne r (List.mem_cons_self r rest))]

theorem apply_direct_fst (l : List Char) :
    (apply_direct_mappings l).1 = runRules directMRules l :=
  foldl_directStep_fst DIRECT_MAPPINGS (l, 0) (fun _ h => direct_toks_ne h)

theorem opacityStep_fst (r : Pat × List Char) (s : List Char × Nat) :
    (opacityStep s r).1 = stepLine s.1 ⟨r.1, r.2⟩ := by
  unfold opacityStep stepLine
  split <;> rfl

theorem foldl_opacityStep_fst :
    ∀ (rs : List (Pat × List Char)) (s : List Char × Nat),
      (rs.foldl opacityStep s).1 =
        runRules (rs.map fun r => (⟨r.1, r.2⟩ : MRule)) s.1 := by
  intro rs
  induction rs with
  | nil => intro s; rfl
  | cons r rest ih =>
    intro s
    simp only [List.foldl_cons, List.map_cons]
    rw [ih (opacityStep s r), runRules_cons, opacityStep_fst]

theorem apply_opacity_proj1 (l : List Char) :
    (apply_opacity_mapping l).1 = (opacityRules.foldl opacityStep (l, 0)).1 := by
  simp only [apply_opacity_mapping]

theorem apply_opacity_proj2 (l : List Char) :
    (apply_opacity_mapping l).2.1 = (opacityRules.foldl opacityStep (l, 0)).2 := by
  simp only [apply_opacity_mapping]

theorem apply_opacity_fst (l : List Char) :
    (apply_opacity_mapping l).1 = runRules opacityMRules l := by
  rw [apply_opacity_proj1]
  exact foldl_opacityStep_fst opacityRules (l, 0)

/-- The line after both passes is the pipeline run over all 64 rules. -/
theorem migrated_eq_runRules (l : List Char) :
    (apply_opacity_mapping (apply_direct_mappings l).1).1 = runRules allMRules l := by
  rw [apply_opacity_fst, apply_direct_fst, ← runRules_append]
  rfl

/-- No rule of either table matches the fully-migrated line. -/
theorem migrated_clear (l : List Char) :
    ∀ r ∈ allMRules,
      hasMatchB r.pat ((apply_opacity_mapping (apply_direct_mappings l).1).1) = false := by
  intro r hr
  rw [migrated_eq_runRules]
  exact runRules_clear allMRules allMRules_safe l r hr

theorem foldl_directStep_id :
    ∀ (rs : List ReplacementRule) (l : List Char) (c : Nat),
      (∀ r ∈ rs, hasMatchB r.pattern l = false) →
      rs.foldl directStep (l, c) = (l, c) := by
  intro rs
  induction rs with
  | nil => intro l c _; rfl
  | cons r rest ih =>
    intro l c h
    have h0 : countB r.pattern l = 0 :=
      countB_of_not_hasMatch (h r (List.mem_cons_self r rest))
    have hstep : directStep (l, c) r = (l, c) := by
      unfold directStep
      rw [h0, if_neg (by omega)]
    simp only [List.foldl_cons, hstep]
    exact ih l c (fun r2 h2 => h r2 (List.mem_cons_of_mem r h2))

theorem apply_direct_id {l : List Char}
    (h : ∀ r ∈ DIRECT_MAPPINGS, hasMatchB r.pattern l = false) :
    apply_direct_mappings l = (l, 0) :=
  foldl_directStep_id DIRECT_MAPPINGS l 0 h

theorem foldl_opacityStep_id :
    ∀ (rs : List (Pat × List Char)) (l : List Char) (c : Nat),
      (∀ r ∈ rs, hasMatchB r.1 l = false) →
      rs.foldl opacityStep (l, c) = (l, c) := by
  intro rs
  induction rs with
  | nil => intro l c _; rfl
  | cons r rest ih =>
    intro l c h
    have hstep : opacityStep (l, c) r = (l, c) := by
      unfold opacityStep
      rw [h r (List.mem_cons_self r rest)]
      simp
    simp only [List.foldl_cons, hstep]
    exact ih l c (fun r2 h2 => h r2 (List.mem_cons_of_mem r h2))

/-- Components of `migrate_tail_check`: the line and count pass through. -/
theorem migrate_tail_check_parts (l2 : List Char) (total : Nat) (n : Nat) :
    (migrate_tail_check l2 total n).1 = l2 ∧
      (migrate_tail_check l2 total n).2.1 = total := by
  unfold migrate_tail_check
  split
  · split <;> exact ⟨rfl, rfl⟩
  · exact ⟨rfl, rfl⟩

/-- A line on which no rule matches passes through `migrate_line`
unchanged and with replacement count 0 (whatever the skip outcome). -/
theorem migrate_line_fixed {l2 : List Char} (n : Nat)
    (hclear : ∀ r ∈ allMRules, hasMatchB r.pat l2 = false) :
    (migrate_line l2 n).1 = l2 ∧ (migrate_line l2 n).2.1 = 0 := by
  have hdir : ∀ r ∈ DIRECT_MAPPINGS, hasMatchB r.pattern l2 = false :=
    fun r hr => hclear _ (mem_allMRules_direct hr)
  have hop : ∀ r ∈ opacityRules, hasMatchB r.1 l2 = false :=
    fun r hr => hclear _ (mem_allMRules_opacity hr)
  have hd : apply_direct_mappings l2 = (l2, 0) := apply_direct_id hdir
  have hfold : opacityRules.foldl opacityStep (l2, 0) = (l2, 0) :=
    foldl_opacityStep_id opacityRules l2 0 hop
  have ho1 : (apply_opacity_mapping l2).1 = l2 := by
    rw [apply_opacity_proj1, hfold]
  have ho2 : (apply_opacity_mapping l2).2.1 = 0 := by
    rw [apply_opacity_proj2, hfold]
  cases hsk : should_skip_line l2 with
  | some reason =>
    cases hmk : containsSub markerChars l2 with
    | true =>
      have he : migrate_line l2 n = (l2, 0, some (n, pyStrip l2, reason)) := by
        unfold migrate_line
        rw [hsk, hmk]
      rw [he]
      exact ⟨rfl, rfl⟩
    | false =>
      have he : migrate_line l2 n = (l2, 0, none) := by
        unfold migrate_line
        rw [hsk, hmk]
      rw [he]
      exact ⟨rfl, rfl⟩
  | none =>
    cases hmk : containsSub markerChars l2 with
    | false =>
      have he : migrate_line l2 n = (l2, 0, none) := by
        unfold migrate_line
        rw [hsk, hmk]
      rw [he]
      exact ⟨rfl, rfl⟩
    | true =>
      have he : migrate_line l2 n =
          migrate_tail_check (apply_opacity_mapping (apply_direct_mappings l2).1).1
            ((apply_direct_mappings l2).2 +
              (apply_opacity_mapping (apply_direct_mappings l2).1).2.1) n := by
        unfold migrate_line
        rw [hsk, hmk]
      rw [he, hd]
      have h1 : ((l2, 0) : List Char × Nat).1 = l2 := rfl
      have h2 : ((l2, 0) : List Char × Nat).2 = 0 := rfl
      rw [h1, h2, ho1, ho2]
      exact migrate_tail_check_parts l2 0 n

/-- Equation of `migrate_line` in the main branch. -/
theorem migrate_line_main_eq {l : List Char} (n : Nat)
    (hsk : should_skip_line l = none) (hmk : containsSub markerChars l = true) :
    migrate_line l n =
      migrate_tail_check (apply_opacity_mapping (apply_direct_mappings l).1).1
        ((apply_direct_mappings l).2 +
          (apply_opacity_mapping (apply_direct_mappings l).1).2.1) n := by
  unfold migrate_line
  rw [hsk, hmk]

/-- In the main branch, the returned line is the two-pass pipeline
output, and the returned count is the sum of the two counts. -/
theorem migrate_line_main_parts {l : List Char} (n : Nat)
    (hsk : should_skip_line l = none) (hmk : containsSub markerChars l = true) :
    (migrate_line l n).1 = (apply_opacity_mapping (apply_direct_mappings l).1).1 ∧
    (migrate_line l n).2.1 =
      (apply_direct_mappings l).2 +
        (apply_opacity_mapping (apply_direct_mappings l).1).2.1 := by
  rw [migrate_line_main_eq n hsk hmk]
  exact migrate_tail_check_parts _ _ n

/-- Second-pass stability of `migrate_line` (the core of idempotence). -/
theorem migrate_line_second_pass (l : List Char) (n : Nat) :
    (migrate_line (migrate_line l n).1 n).1 = (migrate_line l n).1 ∧
    (migrate_line (migrate_line l n).1 n).2.1 = 0 := by
  cases hsk : should_skip_line l with
  | some reason =>
    cases hmk : containsSub markerChars l with
    | true =>
      have he : migrate_line l n = (l, 0, some (n, pyStrip l, reason)) := by
        unfold migrate_line
        rw [hsk, hmk]
      rw [he]
      constructor
      · show (migrate_line l n).1 = l
        rw [he]
      · show (migrate_line l n).2.1 = 0
        rw [he]
    | false =>
      have he : migrate_line l n = (l, 0, none) := by
        unfold migrate_line
        rw [hsk, hmk]
      rw [he]
      constructor
      · show (migrate_line l n).1 = l
        rw [he]
      · show (migrate_line l n).2.1 = 0
        rw [he]
  | none =>
    cases hmk : containsSub markerChars l with
    | false =>
      have he : migrate_line l n = (l, 0, none) := by
        unfold migrate_line
        rw [hsk, hmk]
      rw [he]
      constructor
      · show (migrate_line l n).1 = l
        rw [he]
      · show (migrate_line l n).2.1 = 0
        rw [he]
    | true =>
      obtain ⟨hfst, _⟩ := migrate_line_main_parts n hsk hmk
      rw [hfst]
      exact migrate_line_fixed n (migrated_clear l)

theorem processLines_cons (l : List Char) (rest : List (List Char)) (i : Nat) :
    processLines (l :: rest) i =
      ((migrate_line l i).1 :: (processLines rest (i + 1)).1,
       (migrate_line l i).2.1 + (processLines rest (i + 1)).2.1,
       match (migrate_line l i).2.2 with
       | some s => s :: (processLines rest (i + 1)).2.2
       | none => (processLines rest (i + 1)).2.2) := rfl

theorem processLines_idem :
    ∀ (lines : List (List Char)) (i : Nat),
      (processLines (processLines lines i).1 i).1 = (processLines lines i).1 := by
  intro lines
  induction lines with
  | nil => intro i; rfl
  | cons l rest ih =>
    intro i
    have h1 : (processLines (l :: rest) i).1 =
        (migrate_line l i).1 :: (processLines rest (i + 1)).1 := by
      rw [processLines_cons]
    rw [h1, processLines_cons]
    show (migrate_line (migrate_line l i).1 i).1 ::
        (processLines (processLines rest (i + 1)).1 (i + 1)).1 =
      (migrate_line l i).1 :: (processLines rest (i + 1)).1
    rw [(migrate_line_second_pass l i).1, ih (i + 1)]

/-- C1.  Line-rewriter idempotence: for every input line `l` and line
number `n`, if `migrate_line l n` returns `(l', c, s)` then
`migrate_line l' n` returns `l'` textually unchanged with replacement
count 0; hence running the migration a second time over already-migrated
text yields identical output. -/
theorem C1_line_rewriter_idempotent :
    (∀ (l : List Char) (n : Nat),
        (migrate_line (migrate_line l n).1 n).1 = (migrate_line l n).1 ∧
        (migrate_line (migrate_line l n).1 n).2.1 = 0) ∧
    (∀ (lines : List (List Char)) (i : Nat),
        (processLines (processLines lines i).1 i).1 = (processLines lines i).1) :=
  ⟨migrate_line_second_pass, processLines_idem⟩

/- ====================================================================
CLAIMS ABOUT SKIPPING AND THE FILE MIGRATOR
==================================================================== -/

/-- C5.  Skip inviolability: a line containing a skip pattern and the
legacy marker is returned textually unchanged with count 0 and skip info
`(lineNumber, trimmed line, first matching pattern's reason)`. -/
theorem C5_skip_inviolability (l : List Char) (n : Nat) (sp : List Char)
    (hfind : SKIP_PATTERNS.find? (fun p => containsSub p l) = some sp)
    (hmk : containsSub markerChars l = true) :
    migrate_line l n = (l, 0, some (n, pyStrip l, mkSkipReason sp)) := by
  have hsk : should_skip_line l = some (mkSkipReason sp) := by
    unfold should_skip_line
    rw [hfind]
    rfl
  unfold migrate_line
  rw [hsk, hmk]

/-- Witness for C5 at a concrete skipped line. -/
theorem C5_skip_inviolability_witness :
    migrate_line (cl "border: AppColors.Budget.warning") 4 =
      (cl "border: AppColors.Budget.warning", 0,
        some (4, cl "border: AppColors.Budget.warning",
          mkSkipReason (cl "AppColors.Budget."))) :=
  C5_skip_inviolability (cl "border: AppColors.Budget.warning") 4
    (cl "AppColors.Budget.") (by decide) (by decide)

theorem migrate_file_ok_eq (path : String) (lines : List (List Char))
    (dry : Bool) :
    migrate_file path (Except.ok lines) dry =
      (if ¬ dry = true ∧ 0 < (processLines lines 1).2.1
       then ((⟨path, (processLines lines 1).2.1, (processLines lines 1).2.2, []⟩ :
               MigrationResult),
             some (processLines lines 1).1)
       else ((⟨path, (processLines lines 1).2.1, (processLines lines 1).2.2, []⟩ :
               MigrationResult), none)) := rfl

theorem migrate_file_ok_result (path : String) (lines : List (List Char))
    (dry : Bool) :
    (migrate_file path (Except.ok lines) dry).1 =
      ⟨path, (processLines lines 1).2.1, (processLines lines 1).2.2, []⟩ := by
  rw [migrate_file_ok_eq]
  split <;> rfl

theorem processLines_sum :
    ∀ (lines : List (List Char)) (i : Nat),
      (processLines lines i).2.1 =
        ((lines.enumFrom i).map (fun pr => (migrate_line pr.2 pr.1).2.1)).sum := by
  intro lines
  induction lines with
  | nil => intro i; rfl
  | cons l rest ih =>
    intro i
    have h1 : (processLines (l :: rest) i).2.1 =
        (migrate_line l i).2.1 + (processLines rest (i + 1)).2.1 := by
      rw [processLines_cons]
    rw [h1, ih (i + 1)]
    rfl

/-- C6.  Count accuracy: `replacementsMade` of a file equals the sum of
the per-line replacement counts returned by the Line Rewriter, over the
file's lines in order (numbered from 1). -/
theorem C6_count_accuracy (path : String) (lines : List (List Char)) (dry : Bool) :
    (migrate_file path (Except.ok lines) dry).1.replacements_made =
      ((lines.enumFrom 1).map (fun pr => (migrate_line pr.2 pr.1).2.1)).sum := by
  rw [migrate_file_ok_result]
  exact processLines_sum lines 1

/-- C7.  Dry-run and no-change non-mutation: the file is written back
exactly when `dryRun` is false and `replacementsMade > 0`; when `dryRun`
is true, or when no replacements occurred, no write happens and the file
on disk is untouched. -/
theorem C7_dry_run_non_mutation (path : String) (lines : List (List Char))
    (dry : Bool) :
    (migrate_file path (Except.ok lines) dry).2 =
      (if dry = false ∧ 0 < (migrate_file path (Except.ok lines) dry).1.replacements_made
       then some (processLines lines 1).1
       else none) := by
  rw [migrate_file_ok_result, migrate_file_ok_eq]
  by_cases h : 0 < (processLines lines 1).2.1
  · cases dry <;> simp [h]
  · cases dry <;> simp [h]

/-- C9.  Read-failure containment: a failed read yields a result with
`replacementsMade = 0`, empty `skippedInstances`, a non-empty `errors`
list, and no write to the file. -/
theorem C9_read_failure (path : String) (e : String) (dry : Bool) :
    migrate_file path (Except.error e) dry =
      (⟨path, 0, [], ["Failed to read file: " ++ e]⟩, none) ∧
    (migrate_file path (Except.error e) dry).1.errors ≠ [] := by
  constructor
  · rfl
  · intro hcon
    simp [migrate_file] at hcon

/- ====================================================================
SUBSTRING AND FINDALL SOUNDNESS
==================================================================== -/

theorem containsSub_iff {m l : List Char} :
    containsSub m l = true ↔ ∃ i, m.isPrefixOf (l.drop i) = true := by
  induction l with
  | nil =>
    simp only [containsSub, List.drop_nil]
    exact ⟨fun h => ⟨0, h⟩, fun ⟨_, h⟩ => h⟩
  | cons c cs ih =>
    simp only [containsSub, Bool.or_eq_true]
    constructor
    · rintro (h | h)
      · exact ⟨0, h⟩
      · obtain ⟨i, hi⟩ := ih.mp h
        exact ⟨i + 1, hi⟩
    · rintro ⟨i, hi⟩
      cases i with
      | zero => exact Or.inl hi
      | succ j => exact Or.inr (ih.mpr ⟨j, hi⟩)

theorem containsSub_of_drop {m l : List Char} (k : Nat)
    (h : containsSub m (l.drop k) = true) : containsSub m l = true := by
  rw [containsSub_iff] at h ⊢
  obtain ⟨i, hi⟩ := h
  rw [List.drop_drop] at hi
  refine ⟨i + k, ?_⟩
  rwa [Nat.add_comm i k]

theorem containsSub_cons {m : List Char} (c : Char) {cs : List Char}
    (h : containsSub m cs = true) : containsSub m (c :: cs) = true := by
  simp [containsSub, h]

theorem containsSub_take_self (l : List Char) (n : Nat) :
    containsSub (l.take n) l = true := by
  rw [containsSub_iff]
  refine ⟨0, ?_⟩
  rw [List.drop_zero, List.isPrefixOf_iff_prefix]
  exact List.take_prefix n l

/-- A substring that starts with `a` witnesses `a` as a substring. -/
theorem containsSub_of_prefix {a m l : List Char}
    (hpre : a.isPrefixOf m = true) (h : containsSub m l = true) :
    containsSub a l = true := by
  rw [containsSub_iff] at h ⊢
  obtain ⟨i, hi⟩ := h
  refine ⟨i, ?_⟩
  rw [ List.isPrefixOf_iff_prefix] at hpre hi ⊢
  exact hpre.trans hi

theorem matchR2len_parts {l : List Char} {n : Nat} (h : matchR2len l = some n) :
    (cl "AppColors.").isPrefixOf l = true ∧ 10 ≤ n := by
  simp only [matchR2len] at h
  split at h
  · split at h
    · simp only [Option.some.injEq] at h
      constructor
      · assumption
      · omega
    · exact absurd h (by simp)
  · exact absurd h (by simp)

theorem findallR2F_sound :
    ∀ (fuel : Nat) (l : List Char), l.length ≤ fuel →
      ∀ m ∈ findallR2F fuel l, containsSub m l = true := by
  intro fuel
  induction fuel with
  | zero =>
    intro l hl m hm
    rw [List.eq_nil_of_length_eq_zero (Nat.le_zero.mp hl)] at hm
    simp [findallR2F] at hm
  | succ fuel ih =>
    intro l hl m hm
    cases l with
    | nil => simp [findallR2F] at hm
    | cons c cs =>
      simp only [List.length_cons] at hl
      cases hml : matchR2len (c :: cs) with
      | some n =>
        rw [show findallR2F (fuel + 1) (c :: cs) =
            (c :: cs).take n :: findallR2F fuel ((c :: cs).drop n) from by
          simp [findallR2F, hml]] at hm
        rcases List.mem_cons.mp hm with he | ht
        · subst he
          exact containsSub_take_self (c :: cs) n
        · have hn : 0 < n := matchR2len_pos hml
          have hrec := ih ((c :: cs).drop n)
            (by simp only [List.length_drop, List.length_cons]; omega) m ht
          exact containsSub_of_drop n hrec
      | none =>
        rw [show findallR2F (fuel + 1) (c :: cs) = findallR2F fuel cs from by
          simp [findallR2F, hml]] at hm
        exact containsSub_cons c (ih cs (by omega) m hm)

theorem findallR2_sound {l m : List Char} (hm : m ∈ findallR2 l) :
    containsSub m l = true :=
  findallR2F_sound l.length l (le_refl _) m hm

/-- Every reported `findallR2` match starts with `AppColors.`. -/
theorem findallR2F_start :
    ∀ (fuel : Nat) (l : List Char),
      ∀ m ∈ findallR2F fuel l, (cl "AppColors.").isPrefixOf m = true := by
  intro fuel
  induction fuel with
  | zero =>
    intro l m hm
    cases l <;> simp [findallR2F] at hm
  | succ fuel ih =>
    intro l m hm
    cases l with
    | nil => simp [findallR2F] at hm
    | cons c cs =>
      cases hml : matchR2len (c :: cs) with
      | some n =>
        rw [show findallR2F (fuel + 1) (c :: cs) =
            (c :: cs).take n :: findallR2F fuel ((c :: cs).drop n) from by
          simp [findallR2F, hml]] at hm
        rcases List.mem_cons.mp hm with he | ht
        · subst he
          obtain ⟨hpre, hn⟩ := matchR2len_parts hml
          rw [ List.isPrefixOf_iff_prefix] at hpre ⊢
          rw [List.prefix_take_iff]
          exact ⟨hpre, by simp [cl]; omega⟩
        · exact ih _ m ht
      | none =>
        rw [show findallR2F (fuel + 1) (c :: cs) = findallR2F fuel cs from by
          simp [findallR2F, hml]] at hm
        exact ih cs m hm

theorem findallR2_start {l m : List Char} (hm : m ∈ findallR2 l) :
    (cl "AppColors.").isPrefixOf m = true :=
  findallR2F_start l.length l m hm

theorem should_skip_eq_some {l reason : List Char}
    (h : should_skip_line l = some reason) :
    ∃ sp, SKIP_PATTERNS.find? (fun p => containsSub p l) = some sp ∧
      reason = mkSkipReason sp := by
  unfold should_skip_line at h
  rw [Option.map_eq_some'] at h
  obtain ⟨sp, h1, h2⟩ := h
  exact ⟨sp, h1, h2.symm⟩

theorem mkSkipReason_ne_unhandled (sp p : List Char) :
    mkSkipReason sp ≠ cl "Unhandled pattern: " ++ p := by
  intro h
  have h1 : mkSkipReason sp =
      'C' :: (cl "ontains " ++ sp ++ cl " (domain-specific color)") := rfl
  have h2 : cl "Unhandled pattern: " ++ p =
      'U' :: (cl "nhandled pattern: " ++ p) := rfl
  rw [h1, h2] at h
  injection h with h3 _
  exact absurd h3 (by decide)

theorem migrate_tail_check_some {l2 : List Char} {total n : Nat}
    {lr : List Char} {c : Nat} {info : Nat × List Char × List Char}
    (h : migrate_tail_check l2 total n = (lr, c, some info)) :
    lr = l2 ∧ c = total ∧
      ∃ p0, (findallR2 l2).find? (fun q => !containsSub semChars q) = some p0 ∧
        info = (n, pyStrip l2, cl "Unhandled pattern: " ++ p0) := by
  unfold migrate_tail_check at h
  split at h
  · split at h
    · rename_i p0 hfind
      simp only [Prod.mk.injEq, Option.some.injEq] at h
      obtain ⟨hl, hc, hi⟩ := h
      exact ⟨hl.symm, hc.symm, p0, hfind, hi.symm⟩
    · simp at h
  · simp at h

/-- C8.  No data loss on unresolved: whenever the Line Rewriter returns
skip info tagged `Unhandled pattern: p`, the exact substring `p` is
still present in the rewritten line returned alongside that skip info. -/
theorem C8_no_data_loss_on_unresolved (l : List Char) (n : Nat)
    (l2 : List Char) (c : Nat) (info : Nat × List Char × List Char) (p : List Char)
    (hres : migrate_line l n = (l2, c, some info))
    (hreason : info.2.2 = cl "Unhandled pattern: " ++ p) :
    containsSub p l2 = true := by
  cases hsk : should_skip_line l with
  | some reason =>
    cases hmk : containsSub markerChars l with
    | true =>
      have he : migrate_line l n = (l, 0, some (n, pyStrip l, reason)) := by
        unfold migrate_line
        rw [hsk, hmk]
      rw [he] at hres
      simp only [Prod.mk.injEq, Option.some.injEq] at hres
      obtain ⟨h1, h2, h3⟩ := hres
      obtain ⟨sp, hsp, hrsp⟩ := should_skip_eq_some hsk
      rw [← h3] at hreason
      have hx : ((n, pyStrip l, reason) : Nat × List Char × List Char).2.2 =
          reason := rfl
      rw [hx] at hreason
      rw [hrsp] at hreason
      exact absurd hreason (mkSkipReason_ne_unhandled sp p)
    | false =>
      have he : migrate_line l n = (l, 0, none) := by
        unfold migrate_line
        rw [hsk, hmk]
      rw [he] at hres
      simp at hres
  | none =>
    cases hmk : containsSub markerChars l with
    | false =>
      have he : migrate_line l n = (l, 0, none) := by
        unfold migrate_line
        rw [hsk, hmk]
      rw [he] at hres
      simp at hres
    | true =>
      rw [migrate_line_main_eq n hsk hmk] at hres
      obtain ⟨h1, h2, p0, hfind, hinfo⟩ := migrate_tail_check_some hres
      rw [h1]
      rw [hinfo] at hreason
      have hx : ((n, pyStrip ((apply_opacity_mapping (apply_direct_mappings l).1).1),
          cl "Unhandled pattern: " ++ p0) : Nat × List Char × List Char).2.2 =
          cl "Unhandled pattern: " ++ p0 := rfl
      rw [hx] at hreason
      have hp : p0 = p := List.append_cancel_left hreason
      subst hp
      exact findallR2_sound (List.mem_of_find?_eq_some hfind)

/-- Witness for C8 at a concrete line with an unresolved pattern. -/
theorem C8_no_data_loss_witness :
    containsSub (cl "AppColors.foo") (cl "x AppColors.foo y") = true :=
  C8_no_data_loss_on_unresolved (cl "x AppColors.foo y") 2
    (cl "x AppColors.foo y") 0
    (2, cl "x AppColors.foo y", cl "Unhandled pattern: AppColors.foo")
    (cl "AppColors.foo") (by decide) (by decide)

/-- Counterexample to C4 as stated: after both passes the legacy marker
`AppColors` is still present in the returned line, yet the Line Rewriter
returns NO skip info, because the remaining occurrence is not followed
by `.\w` and so the reporting regex finds nothing. -/
theorem C4_counterexample :
    containsSub markerChars (migrate_line (cl "let x = AppColors") 1).1 = true ∧
    (migrate_line (cl "let x = AppColors") 1).2.2 = none := by decide

/-- C4 (amended).  For a non-skipped marker-containing line, if the
reporting regex finds, in the line left after both passes, a match with
no `SemanticColors` inside, then `migrate_line` returns that line, the
total count of completed replacements, and skip info
`Unhandled pattern: <p>` naming the first such match. -/
theorem C4_unhandled_flagging (l : List Char) (n : Nat) (p : List Char)
    (hsk : should_skip_line l = none)
    (hmk : containsSub markerChars l = true)
    (hfind : (findallR2 ((apply_opacity_mapping (apply_direct_mappings l).1).1)).find?
        (fun q => !containsSub semChars q) = some p) :
    migrate_line l n =
      ((apply_opacity_mapping (apply_direct_mappings l).1).1,
       (apply_direct_mappings l).2 +
         (apply_opacity_mapping (apply_direct_mappings l).1).2.1,
       some (n, pyStrip ((apply_opacity_mapping (apply_direct_mappings l).1).1),
         cl "Unhandled pattern: " ++ p)) := by
  have hmem := List.mem_of_find?_eq_some hfind
  have hmp : markerChars.isPrefixOf p = true := by
    have h1 : (cl "AppColors.").isPrefixOf p = true := findallR2_start hmem
    rw [ List.isPrefixOf_iff_prefix] at h1 ⊢
    have h2 : markerChars <+: cl "AppColors." := by
      rw [← List.isPrefixOf_iff_prefix]
      decide
    exact h2.trans h1
  have hP : containsSub markerChars
      ((apply_opacity_mapping (apply_direct_mappings l).1).1) = true :=
    containsSub_of_prefix hmp (findallR2_sound hmem)
  rw [migrate_line_main_eq n hsk hmk]
  unfold migrate_tail_check
  split
  · rw [hfind]
  · rename_i hcond
    rw [hP] at hcond
    exact absurd rfl hcond

/-- Witness for C4 (amended) at a concrete unresolved line. -/
theorem C4_unhandled_flagging_witness :
    migrate_line (cl "AppColors.accent.opacity(0.5)") 7 =
      ((apply_opacity_mapping (apply_direct_mappings
          (cl "AppColors.accent.opacity(0.5)")).1).1,
       (apply_direct_mappings (cl "AppColors.accent.opacity(0.5)")).2 +
         (apply_opacity_mapping (apply_direct_mappings
           (cl "AppColors.accent.opacity(0.5)")).1).2.1,
       some (7, pyStrip ((apply_opacity_mapping (apply_direct_mappings
           (cl "AppColors.accent.opacity(0.5)")).1).1),
         cl "Unhandled pattern: " ++ cl "AppColors.accent.opacity(0.5)")) :=
  C4_unhandled_flagging (cl "AppColors.accent.opacity(0.5)") 7
    (cl "AppColors.accent.opacity(0.5)") (by decide) (by decide) (by decide)

/-- C3 is a code bug: `accent` is listed in `COLORS_WITH_OPACITY` (whose
comment says these colors support opacity mappings) and `0.3` is in
`OPACITY_MAPPINGS`, yet `apply_opacity_mapping` hard-codes only
`textPrimary`, `textSecondary` and `primary`, so
`AppColors.accent.opacity(0.3)` is NOT rewritten: the line is returned
unchanged with count 0 and flagged as an unhandled pattern. -/
theorem C3_opacity_table_not_implemented :
    ("accent", "SemanticColors.accent") ∈ COLORS_WITH_OPACITY ∧
    ("0.3", "Opacity.light") ∈ OPACITY_MAPPINGS ∧
    migrate_line (cl "AppColors.accent.opacity(0.3)") 1 =
      (cl "AppColors.accent.opacity(0.3)", 0,
        some (1, cl "AppColors.accent.opacity(0.3)",
          cl "Unhandled pattern: AppColors.accent.opacity(0.3)")) := by decide

/- ====================================================================
MATCH PRESERVATION (for the opacity count semantics)
==================================================================== -/

theorem hasMatchB_eq_true_iff {p : Pat} {l : List Char} :
    hasMatchB p l = true ↔ ∃ i, matchAtB p (l.drop i) = true := by
  induction l with
  | nil =>
    simp only [hasMatchB, List.drop_nil]
    exact ⟨fun h => ⟨0, h⟩, fun ⟨_, h⟩ => h⟩
  | cons c cs ih =>
    simp only [hasMatchB, Bool.or_eq_true]
    constructor
    · rintro (h | h)
      · exact ⟨0, h⟩
      · obtain ⟨i, hi⟩ := ih.mp h
        exact ⟨i + 1, hi⟩
    · rintro ⟨i, hi⟩
      cases i with
      | zero => exact Or.inl hi
      | succ j => exact Or.inr (ih.mpr ⟨j, hi⟩)

/-- LEMMA C: a match of a lookahead-free pattern `p` survives `re.sub`
with an incompatible pattern `q` (their patterns cannot overlap). -/
theorem subst_preserve_match {p q : Pat} {qrep : List Char}
    (hqne : q.toks ≠ [])
    (hpnd : p.negDot = false)
    (hpq : ∀ j, j < q.toks.length → compatTT p.toks (q.toks.drop j) = false)
    (hqp : ∀ j, j < p.toks.length → compatTT q.toks (p.toks.drop j) = false) :
    ∀ l, hasMatchB p l = true → hasMatchB p (subst q qrep l) = true := by
  have hqpos : 0 < q.toks.length := by
    cases hq : q.toks with
    | nil => exact absurd hq hqne
    | cons t ts => simp
  suffices main : ∀ (n : Nat) (l : List Char), l.length ≤ n →
      hasMatchB p l = true → hasMatchB p (subst q qrep l) = true by
    intro l
    exact main l.length l (le_refl _)
  intro n
  induction n with
  | zero =>
    intro l hl h
    rw [List.eq_nil_of_length_eq_zero (Nat.le_zero.mp hl)] at h ⊢
    rw [subst_nil]
    exact h
  | succ n ih =>
    intro l hl h
    cases l with
    | nil => rw [subst_nil]; exact h
    | cons c cs =>
      by_cases hm : matchAtB q (c :: cs) = true
      · rw [subst_cons_match1 qrep hqne hm]
        obtain ⟨i, hi⟩ := hasMatchB_eq_true_iff.mp h
        have hige : q.toks.length ≤ i := by
          by_contra hcon
          push_neg at hcon
          have hinst : matchTailB (q.toks.drop i) q.negDot ((c :: cs).drop i) = true :=
            matchTailB_drop hm (le_of_lt hcon)
          have hcompat : compatCB p.toks ((c :: cs).drop i) = true :=
            compatCB_of_matchTail hi
          have hbr := compatTT_of_instance hinst hcompat
          rw [hpq i hcon] at hbr
          exact Bool.noConfusion hbr
        have hdropped : hasMatchB p ((c :: cs).drop q.toks.length) = true := by
          apply hasMatchB_of_matchAt_drop (i := i - q.toks.length)
          rw [List.drop_drop]
          rwa [show q.toks.length + (i - q.toks.length) = i from by omega]
        have hrec := ih ((c :: cs).drop q.toks.length)
          (by simp only [List.length_drop, List.length_cons]
              simp only [List.length_cons] at hl
              omega) hdropped
        exact hasMatchB_append_right hrec
      · have hsubst : subst q qrep (c :: cs) = c :: subst q qrep cs :=
          subst_cons_nomatch1 qrep (Bool.eq_false_iff.mpr hm)
        simp only [hasMatchB, Bool.or_eq_true] at h
        rcases h with hph | htl
        · -- the head match of p survives: no q-match can start inside it
          have hmlen : p.toks.length ≤ (c :: cs).length := matchTailB_length hph
          have hnomatch : ∀ j, j < (List.take p.toks.length (c :: cs)).length →
              matchAtB q ((List.take p.toks.length (c :: cs) ++
                List.drop p.toks.length (c :: cs)).drop j) = false := by
            intro j hj
            rw [List.take_append_drop]
            simp only [List.length_take] at hj
            have hjlt : j < p.toks.length := lt_of_lt_of_le hj (by omega)
            by_contra hcon
            rw [Bool.not_eq_false] at hcon
            cases Nat.eq_zero_or_pos j with
            | inl hj0 =>
              subst hj0
              simp only [List.drop_zero] at hcon
              exact hm hcon
            | inr hjpos =>
              have hinst : matchTailB (p.toks.drop j) p.negDot ((c :: cs).drop j) = true :=
                matchTailB_drop hph (le_of_lt hjlt)
              have hcompat : compatCB q.toks ((c :: cs).drop j) = true :=
                compatCB_of_matchTail hcon
              have hbr := compatTT_of_instance hinst hcompat
              rw [hqp j hjlt] at hbr
              exact Bool.noConfusion hbr
          have hsplit := @subst_append_nomatch q qrep _ _ hnomatch
          rw [List.take_append_drop] at hsplit
          rw [hsplit]
          apply hasMatchB_of_matchAt_drop (i := 0)
          rw [List.drop_zero]
          have hph2 : matchTailB p.toks false (c :: cs) = true := by
            have hx : matchTailB p.toks p.negDot (c :: cs) = true := hph
            rwa [hpnd] at hx
          show matchTailB p.toks p.negDot
            (List.take p.toks.length (c :: cs) ++
              subst q qrep (List.drop p.toks.length (c :: cs))) = true
          rw [hpnd]
          exact matchTailB_take_append _ hph2
        · rw [hsubst]
          apply hasMatchB_cons_tail
          apply ih cs ?_ htl
          simp only [List.length_cons] at hl
          omega

/- ====================================================================
GLOBAL CONDITIONS OF THE OPACITY TABLE (decided once)
==================================================================== -/

theorem opacity_negDot : ∀ r ∈ opacityRules, r.1.negDot = false := by
  have h : opacityRules.all (fun r => r.1.negDot == false) = true := by decide
  rw [List.all_eq_true] at h
  intro r hr
  have := h r hr
  simpa using this

theorem opacity_interior :
    ∀ r ∈ opacityRules, ∀ j, 1 ≤ j → j < r.1.toks.length →
      compatTT markerToks (r.1.toks.drop j) = false := by
  have h : opacityRules.all (fun r =>
      (List.range r.1.toks.length).all fun j =>
        (j == 0) || !compatTT markerToks (r.1.toks.drop j)) = true := by decide
  rw [List.all_eq_true] at h
  intro r hr j hj1 hj2
  have h2 := h r hr
  rw [List.all_eq_true] at h2
  have h3 := h2 j (List.mem_range.mpr hj2)
  simp only [Bool.or_eq_true, beq_iff_eq, Bool.not_eq_true'] at h3
  rcases h3 with h3 | h3
  · omega
  · exact h3

theorem opacity_head_incompat :
    ∀ r ∈ opacityRules, ∀ s ∈ opacityRules, r.1 ≠ s.1 →
      compatTT r.1.toks s.1.toks = false := by
  have h : opacityRules.all (fun a => opacityRules.all (fun b =>
      (a.1 == b.1) || !compatTT a.1.toks b.1.toks)) = true := by decide
  rw [List.all_eq_true] at h
  intro r hr s hs hne
  have h2 := h r hr
  rw [List.all_eq_true] at h2
  have h3 := h2 s hs
  simp only [Bool.or_eq_true, beq_iff_eq, Bool.not_eq_true'] at h3
  rcases h3 with h3 | h3
  · exact absurd h3 hne
  · exact h3

theorem opacity_pairwise_ne :
    List.Pairwise (fun a b => a.1 ≠ b.1) opacityRules := by decide

/-- The incompatibility conditions of Lemma C for two distinct opacity
rules. -/
theorem opacity_pairTT {r s : Pat × List Char}
    (hr : r ∈ opacityRules) (hs : s ∈ opacityRules) (hne : r.1 ≠ s.1) :
    ∀ j, j < s.1.toks.length → compatTT r.1.toks (s.1.toks.drop j) = false := by
  intro j hj
  cases Nat.eq_zero_or_pos j with
  | inl h0 =>
    subst h0
    rw [List.drop_zero]
    exact opacity_head_incompat r hr s hs hne
  | inr hpos =>
    obtain ⟨rest, hrest⟩ :=
      ruleSafe_marker (allMRules_safe _ (mem_allMRules_opacity hr))
    have : compatTT markerToks (s.1.toks.drop j) = false :=
      opacity_interior s hs j hpos hj
    calc compatTT r.1.toks (s.1.toks.drop j)
        = compatTT (markerToks ++ rest) (s.1.toks.drop j) := by rw [← hrest]
      _ = false := compatTT_prefix_false this

/-- A substitution by one opacity rule does not change whether another
(distinct) opacity pattern occurs. -/
theorem opacity_subst_hasMatch_eq {r s : Pat × List Char}
    (hr : r ∈ opacityRules) (hs : s ∈ opacityRules) (hne : r.1 ≠ s.1)
    (l : List Char) :
    hasMatchB r.1 (subst s.1 s.2 l) = hasMatchB r.1 l := by
  have hrsafe := allMRules_safe _ (mem_allMRules_opacity hr)
  have hssafe := allMRules_safe _ (mem_allMRules_opacity hs)
  cases hl : hasMatchB r.1 l with
  | true =>
    exact subst_preserve_match (ruleSafe_toks_ne hssafe)
      (opacity_negDot r hr)
      (opacity_pairTT hr hs hne)
      (opacity_pairTT hs hr (fun hx => hne hx.symm))
      l hl
  | false =>
    exact subst_preserve_nomatch (ruleSafe_toks_ne hssafe)
      (ruleSafe_head hssafe) (ruleSafe_repSem hssafe)
      (ruleSafe_patSem hrsafe)
      (fun j hj => ruleSafe_cross hrsafe hssafe j hj) l hl

theorem foldl_opacityStep_count :
    ∀ (rs : List (Pat × List Char)) (l : List Char) (c : Nat),
      (∀ r ∈ rs, r ∈ opacityRules) →
      List.Pairwise (fun a b => a.1 ≠ b.1) rs →
      (rs.foldl opacityStep (l, c)).2 =
        c + (rs.filter (fun r => hasMatchB r.1 l)).length := by
  intro rs
  induction rs with
  | nil => intro l c _ _; rfl
  | cons r rest ih =>
    intro l c hmem hpw
    have hr : r ∈ opacityRules := hmem r (List.mem_cons_self r rest)
    obtain ⟨hhead, htail⟩ := List.pairwise_cons.mp hpw
    simp only [List.foldl_cons]
    by_cases hm : hasMatchB r.1 l = true
    · have hstep : opacityStep (l, c) r = (subst r.1 r.2 l, c + 1) := by
        unfold opacityStep
        rw [if_pos hm]
      rw [hstep,
        ih (subst r.1 r.2 l) (c + 1) (fun x hx => hmem x (List.mem_cons_of_mem r hx)) htail]
      have hfeq : rest.filter (fun s => hasMatchB s.1 (subst r.1 r.2 l)) =
          rest.filter (fun s => hasMatchB s.1 l) := by
        apply List.filter_congr
        intro s hsmem
        exact opacity_subst_hasMatch_eq
          (hmem s (List.mem_cons_of_mem r hsmem)) hr
          (fun hx => (hhead s hsmem) hx.symm) l
      rw [hfeq]
      have hfc : List.filter (fun s => hasMatchB s.1 l) (r :: rest) =
          r :: List.filter (fun s => hasMatchB s.1 l) rest := by
        simp [List.filter_cons, hm]
      rw [hfc]
      simp only [List.length_cons]
      omega
    · have hstep : opacityStep (l, c) r = (l, c) := by
        unfold opacityStep
        rw [if_neg hm]
      rw [hstep, ih l c (fun x hx => hmem x (List.mem_cons_of_mem r hx)) htail]
      have hfc : List.filter (fun s => hasMatchB s.1 l) (r :: rest) =
          List.filter (fun s => hasMatchB s.1 l) rest := by
        simp [List.filter_cons, hm]
      rw [hfc]

/-- C10.  In the parameterized (opacity) pass, the replacement count is
incremented by exactly 1 for each distinct `(symbol, literal)` pattern
found on the line — the count equals the number of opacity rules whose
pattern occurs in the input line, independent of how many occurrences
each has — even though the substitution rewrites every occurrence: no
opacity pattern matches the resulting line at all. -/
theorem C10_opacity_count_per_pattern (l : List Char) :
    (apply_opacity_mapping l).2.1 =
      (opacityRules.filter (fun r => hasMatchB r.1 l)).length ∧
    ∀ r ∈ opacityRules, hasMatchB r.1 ((apply_opacity_mapping l).1) = false := by
  constructor
  · rw [apply_opacity_proj2]
    have h := foldl_opacityStep_count opacityRules l 0
      (fun r hmem => hmem) opacity_pairwise_ne
    simpa using h
  · intro r hr
    rw [apply_opacity_fst]
    have hsafe : ∀ s ∈ opacityMRules, ruleSafeB s = true :=
      fun s hs => allMRules_safe s (List.mem_append_right _ hs)
    exact runRules_clear opacityMRules hsafe l ⟨r.1, r.2⟩ (List.mem_map_of_mem _ hr)

/- ====================================================================
LITERAL PATTERNS (the direct rules are all-literal)
==================================================================== -/

def litToks (s : List Char) : List Tok := s.map Tok.lit

def tokChar : Tok → Char
  | .lit c => c
  | .wild => ' '

def isLitToks : List Tok → Bool
  | [] => true
  | .lit _ :: ts => isLitToks ts
  | .wild :: _ => false

/-- The character string of an all-literal pattern. -/
def charsOf (r : ReplacementRule) : List Char :=
  r.pattern.toks.map tokChar

theorem litToks_of_isLit : ∀ {ts : List Tok}, isLitToks ts = true →
    ts = litToks (ts.map tokChar) := by
  intro ts
  induction ts with
  | nil => intro _; rfl
  | cons t ts ih =>
    intro h
    cases t with
    | lit c =>
      simp only [isLitToks] at h
      simp only [List.map_cons, litToks, tokChar]
      rw [litToks] at ih
      rw [← ih h]
    | wild => simp [isLitToks] at h

theorem matchTail_lit_prefix {s : List Char} {nd : Bool} {l : List Char}
    (h : matchTailB (litToks s) nd l = true) : s <+: l := by
  induction s generalizing l with
  | nil => exact List.nil_prefix
  | cons a s ih =>
    cases l with
    | nil => simp [litToks, matchTailB] at h
    | cons c cs =>
      simp only [litToks, List.map_cons, matchTailB, Bool.and_eq_true,
        tokAccepts, decide_eq_true_eq] at h
      obtain ⟨ha, hrest⟩ := h
      subst ha
      exact List.cons_prefix_cons.mpr ⟨rfl, ih hrest⟩

theorem matchTail_lit_intro {s : List Char} {nd : Bool} {l : List Char}
    (hpre : s <+: l) (hlook : lookOK nd (l.drop s.length) = true) :
    matchTailB (litToks s) nd l = true := by
  induction s generalizing l with
  | nil => simpa using hlook
  | cons a s ih =>
    cases l with
    | nil =>
      have := hpre.length_le
      simp at this
    | cons c cs =>
      obtain ⟨ha, hrest⟩ := List.cons_prefix_cons.mp hpre
      subst ha
      simp only [litToks, List.map_cons, matchTailB, Bool.and_eq_true,
        tokAccepts, decide_eq_true_eq]
      refine ⟨trivial, ?_⟩
      exact ih hrest (by simpa using hlook)

/-- Matching an all-literal pattern yields exactly its characters. -/
theorem matchAt_lit_prefix {r : ReplacementRule} {l : List Char}
    (hlit : isLitToks r.pattern.toks = true)
    (h : matchAtB r.pattern l = true) : charsOf r <+: l := by
  have he : r.pattern.toks = litToks (charsOf r) := litToks_of_isLit hlit
  unfold matchAtB at h
  rw [he] at h
  exact matchTail_lit_prefix h

theorem charsOf_length (r : ReplacementRule) :
    (charsOf r).length = r.pattern.toks.length := by
  simp [charsOf]

/- ====================================================================
DECIDED FACTS ABOUT THE DIRECT TABLE
==================================================================== -/

theorem direct_isLit : ∀ r ∈ DIRECT_MAPPINGS, isLitToks r.pattern.toks = true := by
  have h : DIRECT_MAPPINGS.all (fun r => isLitToks r.pattern.toks) = true := by decide
  rw [List.all_eq_true] at h
  exact h

theorem direct_negDot : ∀ r ∈ DIRECT_MAPPINGS, r.pattern.negDot = true := by
  have h : DIRECT_MAPPINGS.all (fun r => r.pattern.negDot) = true := by decide
  rw [List.all_eq_true] at h
  exact h

theorem direct_interior :
    ∀ r ∈ DIRECT_MAPPINGS, ∀ j, 1 ≤ j → j < (charsOf r).length →
      compatCB markerToks ((charsOf r).drop j) = false := by
  have h : DIRECT_MAPPINGS.all (fun r =>
      (List.range (charsOf r).length).all fun j =>
        (j == 0) || !compatCB markerToks ((charsOf r).drop j)) = true := by decide
  rw [List.all_eq_true] at h
  intro r hr j hj1 hj2
  have h2 := h r hr
  rw [List.all_eq_true] at h2
  have h3 := h2 j (List.mem_range.mpr hj2)
  simp only [Bool.or_eq_true, beq_iff_eq, Bool.not_eq_true'] at h3
  rcases h3 with h3 | h3
  · omega
  · exact h3

theorem direct_injective :
    ∀ r1 ∈ DIRECT_MAPPINGS, ∀ r2 ∈ DIRECT_MAPPINGS,
      charsOf r1 = charsOf r2 → r1 = r2 := by
  have h : DIRECT_MAPPINGS.all (fun a => DIRECT_MAPPINGS.all (fun b =>
      !(charsOf a == charsOf b) || (a == b))) = true := by decide
  rw [List.all_eq_true] at h
  intro r1 h1 r2 h2 hc
  have ha := h r1 h1
  rw [List.all_eq_true] at ha
  have hb := ha r2 h2
  simp only [Bool.or_eq_true, Bool.not_eq_true', beq_eq_false_iff_ne, ne_eq,
    beq_iff_eq] at hb
  rcases hb with hb | hb
  · exact absurd hc hb
  · exact hb

def suffixNoMarker (sfx : List Char) : Bool :=
  !sfx.isEmpty && (List.range sfx.length).all fun j =>
    !compatCB markerToks (sfx.drop j)

/-- The pair condition of the commutation proof: two rules are equal,
have incomparable pattern strings, or one's pattern string extends the
other's and the replacements are consistent on the shared part. -/
def pairOK (a b : ReplacementRule) : Bool :=
  a == b ||
  (if (charsOf a).isPrefixOf (charsOf b) then
    decide ((charsOf a).length < (charsOf b).length) &&
      (b.replacement == a.replacement ++ (charsOf b).drop (charsOf a).length) &&
      suffixNoMarker ((charsOf b).drop (charsOf a).length)
   else if (charsOf b).isPrefixOf (charsOf a) then
    decide ((charsOf b).length < (charsOf a).length) &&
      (a.replacement == b.replacement ++ (charsOf a).drop (charsOf b).length) &&
      suffixNoMarker ((charsOf a).drop (charsOf b).length)
   else true)

theorem direct_pairOK :
    ∀ r1 ∈ DIRECT_MAPPINGS, ∀ r2 ∈ DIRECT_MAPPINGS, pairOK r1 r2 = true := by
  have h : DIRECT_MAPPINGS.all (fun a => DIRECT_MAPPINGS.all (fun b =>
      pairOK a b)) = true := by decide
  rw [List.all_eq_true] at h
  intro r1 h1 r2 h2
  have ha := h r1 h1
  rw [List.all_eq_true] at ha
  exact ha r2 h2

/- ====================================================================
COMMUTATION HELPERS
==================================================================== -/

theorem lookOK_subst {p : Pat} {e : List Char} (he : ∃ t, e = 'S' :: t)
    {z : List Char} (hz : lookOK true z = true) :
    lookOK true (subst p e z) = true := by
  cases z with
  | nil => rw [subst_nil]; rfl
  | cons d ds =>
    by_cases hm : matchAtB p (d :: ds) = true ∧ p.toks.length ≠ 0
    · obtain ⟨t, ht⟩ := he
      rw [subst_cons_match e hm.1 hm.2, ht]
      simp [lookOK]
    · rw [subst_cons_nomatch e hm]
      rw [lookOK_cons_eq true d (subst p e ds) ds]
      exact hz

/-- No match of a marker-headed pattern can start strictly inside a
marker-free region. -/
theorem no_match_in_marker_free {p : Pat} (hmp : ∃ rest, p.toks = markerToks ++ rest)
    {a : List Char} (ha : ∀ j, j < a.length → compatCB markerToks (a.drop j) = false)
    (b : List Char) : ∀ j, j < a.length → matchAtB p ((a ++ b).drop j) = false := by
  intro j hj
  rw [List.drop_append_of_le_length (le_of_lt hj)]
  by_contra hcon
  rw [Bool.not_eq_false] at hcon
  simp only [matchAtB] at hcon
  have hcomp : compatCB p.toks (a.drop j) = true := compatCB_of_matchTail_append hcon
  obtain ⟨rest, hrest⟩ := hmp
  rw [hrest, compatCB_prefix_false (ha j hj)] at hcomp
  exact Bool.noConfusion hcomp

/-- Same, but the start of the region is excluded by an explicit
no-match hypothesis (the region is a matched span of another rule and
hence marker-headed). -/
theorem no_match_in_span {p : Pat} (hmp : ∃ rest, p.toks = markerToks ++ rest)
    {a : List Char} (ha : ∀ j, 1 ≤ j → j < a.length →
      compatCB markerToks (a.drop j) = false)
    (b : List Char) (h0 : matchAtB p (a ++ b) = false) :
    ∀ j, j < a.length → matchAtB p ((a ++ b).drop j) = false := by
  intro j hj
  cases Nat.eq_zero_or_pos j with
  | inl hj0 =>
    subst hj0
    simpa using h0
  | inr hjpos =>
    rw [List.drop_append_of_le_length (le_of_lt hj)]
    by_contra hcon
    rw [Bool.not_eq_false] at hcon
    simp only [matchAtB] at hcon
    have hcomp : compatCB p.toks (a.drop j) = true := compatCB_of_matchTail_append hcon
    obtain ⟨rest, hrest⟩ := hmp
    rw [hrest, compatCB_prefix_false (ha j hjpos hj)] at hcomp
    exact Bool.noConfusion hcomp

/-- A failed match stays failed after any safe substitution (transport
at the head position). -/
theorem matchAt_head_preserve {p q : MRule}
    (hp : ruleSafeB p = true) (hq : ruleSafeB q = true) {l : List Char}
    (h : matchAtB p.pat l = false) :
    matchAtB p.pat (subst q.pat q.rep l) = false := by
  by_contra hcon
  rw [Bool.not_eq_false] at hcon
  have htr := matchTail_transport (ruleSafe_toks_ne hq) (ruleSafe_head hq)
    (ruleSafe_repSem hq) (ruleSafe_patSem hp) l 0 p.pat.negDot (Nat.zero_le _)
    (by simpa [matchAtB] using hcon)
  simp only [List.drop_zero] at htr
  have hAt : matchAtB p.pat l = true := htr
  rw [h] at hAt
  exact Bool.noConfusion hAt

/-- Splitting a substitution over the replacement text of a safe rule:
the scan passes over it without matching. -/
theorem subst_over_safe_rep {p q : MRule}
    (hp : ruleSafeB p = true) (hq : ruleSafeB q = true) (X : List Char) :
    subst p.pat p.rep (q.rep ++ X) = q.rep ++ subst p.pat p.rep X ∧
    countB p.pat (q.rep ++ X) = countB p.pat X := by
  have hno : ∀ j, j < q.rep.length → matchAtB p.pat ((q.rep ++ X).drop j) = false := by
    apply no_match_in_marker_free (ruleSafe_marker hp)
    exact fun j hj => ruleSafe_repNoMarker hq j hj
  exact ⟨subst_append_nomatch hno, countB_append_nomatch hno⟩

theorem matchTail_look : ∀ {ts : List Tok} {nd : Bool} {l : List Char},
    matchTailB ts nd l = true → lookOK nd (l.drop ts.length) = true := by
  intro ts
  induction ts with
  | nil =>
    intro nd l h
    simpa using h
  | cons t ts ih =>
    intro nd l h
    cases l with
    | nil => simp [matchTailB] at h
    | cons c cs =>
      simp only [matchTailB, Bool.and_eq_true] at h
      simpa using ih h.2

theorem subst_match_general {p : Pat} (rep : List Char) {l : List Char}
    (hne : p.toks ≠ []) (hm : matchAtB p l = true) :
    subst p rep l = rep ++ subst p rep (l.drop p.toks.length) := by
  cases l with
  | nil =>
    rw [matchAtB_nil_false hne] at hm
    exact Bool.noConfusion hm
  | cons c cs => exact subst_cons_match1 rep hne hm

theorem countB_match_general {p : Pat} {l : List Char}
    (hne : p.toks ≠ []) (hm : matchAtB p l = true) :
    countB p l = 1 + countB p (l.drop p.toks.length) := by
  cases l with
  | nil =>
    rw [matchAtB_nil_false hne] at hm
    exact Bool.noConfusion hm
  | cons c cs => exact countB_cons_match1 hne hm

/-- Decomposition of a matched span of an all-literal direct rule. -/
theorem match_span_decomp {r : ReplacementRule}
    (hlit : isLitToks r.pattern.toks = true) (hnd : r.pattern.negDot = true)
    {l : List Char} (h : matchAtB r.pattern l = true) :
    l = charsOf r ++ l.drop r.pattern.toks.length ∧
    lookOK true (l.drop r.pattern.toks.length) = true := by
  have hpre : charsOf r <+: l := matchAt_lit_prefix hlit h
  have htake : charsOf r = l.take r.pattern.toks.length := by
    rw [← charsOf_length r]
    exact List.prefix_iff_eq_take.mp hpre
  constructor
  · conv_lhs => rw [← List.take_append_drop r.pattern.toks.length l]
    rw [← htake]
  · have hlook := matchTail_look (show matchTailB r.pattern.toks r.pattern.negDot l = true from h)
    rwa [hnd] at hlook

theorem matchAt_direct_intro {r : ReplacementRule}
    (hlit : isLitToks r.pattern.toks = true) (hnd : r.pattern.negDot = true)
    {l : List Char} (hpre : charsOf r <+: l)
    (hlook : lookOK true (l.drop (charsOf r).length) = true) :
    matchAtB r.pattern l = true := by
  unfold matchAtB
  rw [litToks_of_isLit hlit]
  rw [hnd]
  exact matchTail_lit_intro hpre hlook

theorem suffixNoMarker_facts {sfx : List Char} (h : suffixNoMarker sfx = true) :
    sfx ≠ [] ∧ ∀ j, j < sfx.length → compatCB markerToks (sfx.drop j) = false := by
  unfold suffixNoMarker at h
  simp only [Bool.and_eq_true, Bool.not_eq_true'] at h
  constructor
  · have h1 := h.1
    intro hcon
    rw [hcon] at h1
    simp at h1
  · have h2 := h.2
    rw [List.all_eq_true] at h2
    intro j hj
    have h3 := h2 j (List.mem_range.mpr hj)
    simpa using h3

theorem pairOK_prefix_facts {a b : ReplacementRule}
    (hok : pairOK a b = true) (hne : a ≠ b)
    (hpre : (charsOf a).isPrefixOf (charsOf b) = true) :
    b.replacement = a.replacement ++ (charsOf b).drop (charsOf a).length ∧
    suffixNoMarker ((charsOf b).drop (charsOf a).length) = true := by
  unfold pairOK at hok
  simp only [Bool.or_eq_true, beq_iff_eq] at hok
  rcases hok with hok | hok
  · exact absurd hok hne
  · rw [hpre] at hok
    simp only [if_true] at hok
    simp only [Bool.and_eq_true, decide_eq_true_eq, beq_iff_eq] at hok
    exact ⟨hok.1.2, hok.2⟩

/-- Commutation case: `ra` matches at the head, `rb` does not. -/
theorem comm_one (ra rb : ReplacementRule)
    (ha : ra ∈ DIRECT_MAPPINGS) (hb : rb ∈ DIRECT_MAPPINGS)
    (n : Nat)
    (IH : ∀ z : List Char, z.length ≤ n →
        subst ra.pattern ra.replacement (subst rb.pattern rb.replacement z) =
          subst rb.pattern rb.replacement (subst ra.pattern ra.replacement z) ∧
        countB rb.pattern z + countB ra.pattern (subst rb.pattern rb.replacement z) =
          countB ra.pattern z + countB rb.pattern (subst ra.pattern ra.replacement z))
    (c : Char) (cs : List Char) (hl : (c :: cs).length ≤ n + 1)
    (hma : matchAtB ra.pattern (c :: cs) = true)
    (hmb : matchAtB rb.pattern (c :: cs) = false) :
    subst ra.pattern ra.replacement (subst rb.pattern rb.replacement (c :: cs)) =
      subst rb.pattern rb.replacement (subst ra.pattern ra.replacement (c :: cs)) ∧
    countB rb.pattern (c :: cs) +
        countB ra.pattern (subst rb.pattern rb.replacement (c :: cs)) =
      countB ra.pattern (c :: cs) +
        countB rb.pattern (subst ra.pattern ra.replacement (c :: cs)) := by
  have hsA := allMRules_safe _ (mem_allMRules_direct ha)
  have hsB := allMRules_safe _ (mem_allMRules_direct hb)
  have hneA : ra.pattern.toks ≠ [] := ruleSafe_toks_ne hsA
  have hlitA := direct_isLit ra ha
  have hndA := direct_negDot ra ha
  have hkapos : 0 < ra.pattern.toks.length := by
    cases hx : ra.pattern.toks with
    | nil => exact absurd hx hneA
    | cons t ts => simp
  obtain ⟨hdec, hlook⟩ := match_span_decomp hlitA hndA hma
  have hlenA : (charsOf ra).length = ra.pattern.toks.length := charsOf_length ra
  have hdropX : ∀ X : List Char,
      (charsOf ra ++ X).drop ra.pattern.toks.length = X := by
    intro X
    rw [← hlenA]
    exact List.drop_left _ _
  have hnomB : ∀ j, j < (charsOf ra).length →
      matchAtB rb.pattern
        ((charsOf ra ++ (c :: cs).drop ra.pattern.toks.length).drop j) = false := by
    apply no_match_in_span (ruleSafe_marker hsB)
      (fun j hj1 hj2 => direct_interior ra ha j hj1 hj2)
    rw [← hdec]
    exact hmb
  have hsplitB : subst rb.pattern rb.replacement (c :: cs) =
      charsOf ra ++ subst rb.pattern rb.replacement
        ((c :: cs).drop ra.pattern.toks.length) := by
    conv_lhs => rw [hdec]
    exact subst_append_nomatch hnomB
  have hcountBsplit : countB rb.pattern (c :: cs) =
      countB rb.pattern ((c :: cs).drop ra.pattern.toks.length) := by
    conv_lhs => rw [hdec]
    exact countB_append_nomatch hnomB
  have hlookX : lookOK true (subst rb.pattern rb.replacement
      ((c :: cs).drop ra.pattern.toks.length)) = true := by
    apply lookOK_subst ?_ hlook
    obtain ⟨r0, hr0⟩ := ruleSafe_repSem hsB
    exact ⟨'e' :: 'm' :: r0, hr0⟩
  have hmaX : matchAtB ra.pattern
      (charsOf ra ++ subst rb.pattern rb.replacement
        ((c :: cs).drop ra.pattern.toks.length)) = true := by
    apply matchAt_direct_intro hlitA hndA (List.prefix_append _ _)
    rw [List.drop_left]
    exact hlookX
  have hLHS : subst ra.pattern ra.replacement
      (subst rb.pattern rb.replacement (c :: cs)) =
      ra.replacement ++ subst ra.pattern ra.replacement
        (subst rb.pattern rb.replacement ((c :: cs).drop ra.pattern.toks.length)) := by
    rw [hsplitB, subst_match_general ra.replacement hneA hmaX, hdropX]
  have hsubA : subst ra.pattern ra.replacement (c :: cs) =
      ra.replacement ++ subst ra.pattern ra.replacement
        ((c :: cs).drop ra.pattern.toks.length) :=
    subst_match_general ra.replacement hneA hma
  have hRHS : subst rb.pattern rb.replacement
      (subst ra.pattern ra.replacement (c :: cs)) =
      ra.replacement ++ subst rb.pattern rb.replacement
        (subst ra.pattern ra.replacement ((c :: cs).drop ra.pattern.toks.length)) := by
    rw [hsubA]
    exact (subst_over_safe_rep (p := ⟨rb.pattern, rb.replacement⟩)
      (q := ⟨ra.pattern, ra.replacement⟩) hsB hsA _).1
  have hrestlen : ((c :: cs).drop ra.pattern.toks.length).length ≤ n := by
    simp only [List.length_drop, List.length_cons]
    simp only [List.length_cons] at hl
    omega
  obtain ⟨ihline, ihcount⟩ := IH _ hrestlen
  constructor
  · rw [hLHS, hRHS, ihline]
  · have hcA1 : countB ra.pattern (c :: cs) =
        1 + countB ra.pattern ((c :: cs).drop ra.pattern.toks.length) :=
      countB_match_general hneA hma
    have hcA2 : countB ra.pattern (subst rb.pattern rb.replacement (c :: cs)) =
        1 + countB ra.pattern (subst rb.pattern rb.replacement
          ((c :: cs).drop ra.pattern.toks.length)) := by
      rw [hsplitB, countB_match_general hneA hmaX, hdropX]
    have hcB2 : countB rb.pattern (subst ra.pattern ra.replacement (c :: cs)) =
        countB rb.pattern (subst ra.pattern ra.replacement
          ((c :: cs).drop ra.pattern.toks.length)) := by
      rw [hsubA]
      exact (subst_over_safe_rep (p := ⟨rb.pattern, rb.replacement⟩)
        (q := ⟨ra.pattern, ra.replacement⟩) hsB hsA _).2
    rw [hcountBsplit, hcA1, hcA2, hcB2]
    omega

/-- Commutation case: both rules match at the head and the shorter
pattern string is a prefix of the longer, with consistent replacements. -/
theorem comm_both (ra rb : ReplacementRule)
    (ha : ra ∈ DIRECT_MAPPINGS) (hb : rb ∈ DIRECT_MAPPINGS)
    (hne : ra ≠ rb)
    (hpre : (charsOf ra).isPrefixOf (charsOf rb) = true)
    (n : Nat)
    (IH : ∀ z : List Char, z.length ≤ n →
        subst ra.pattern ra.replacement (subst rb.pattern rb.replacement z) =
          subst rb.pattern rb.replacement (subst ra.pattern ra.replacement z) ∧
        countB rb.pattern z + countB ra.pattern (subst rb.pattern rb.replacement z) =
          countB ra.pattern z + countB rb.pattern (subst ra.pattern ra.replacement z))
    (c : Char) (cs : List Char) (hl : (c :: cs).length ≤ n + 1)
    (hma : matchAtB ra.pattern (c :: cs) = true)
    (hmb : matchAtB rb.pattern (c :: cs) = true) :
    subst ra.pattern ra.replacement (subst rb.pattern rb.replacement (c :: cs)) =
      subst rb.pattern rb.replacement (subst ra.pattern ra.replacement (c :: cs)) ∧
    countB rb.pattern (c :: cs) +
        countB ra.pattern (subst rb.pattern rb.replacement (c :: cs)) =
      countB ra.pattern (c :: cs) +
        countB rb.pattern (subst ra.pattern ra.replacement (c :: cs)) := by
  have hsA := allMRules_safe _ (mem_allMRules_direct ha)
  have hsB := allMRules_safe _ (mem_allMRules_direct hb)
  have hneA : ra.pattern.toks ≠ [] := ruleSafe_toks_ne hsA
  have hneB : rb.pattern.toks ≠ [] := ruleSafe_toks_ne hsB
  have hlitA := direct_isLit ra ha
  have hndA := direct_negDot ra ha
  have hlitB := direct_isLit rb hb
  have hndB := direct_negDot rb hb
  have hlenA : (charsOf ra).length = ra.pattern.toks.length := charsOf_length ra
  have hlenB : (charsOf rb).length = rb.pattern.toks.length := charsOf_length rb
  obtain ⟨hrepeq, hsfxM⟩ :=
    pairOK_prefix_facts (direct_pairOK ra ha rb hb) hne hpre
  obtain ⟨hsfxne, hsfxfree⟩ := suffixNoMarker_facts hsfxM
  have hpre2 : charsOf ra <+: charsOf rb := List.isPrefixOf_iff_prefix.mp hpre
  have hBdecomp : charsOf rb =
      charsOf ra ++ (charsOf rb).drop (charsOf ra).length := by
    conv_lhs => rw [← List.take_append_drop (charsOf ra).length (charsOf rb)]
    rw [← List.prefix_iff_eq_take.mp hpre2]
  obtain ⟨hdecB, hlookB⟩ := match_span_decomp hlitB hndB hmb
  have hdecAB : (c :: cs) = charsOf ra ++
      ((charsOf rb).drop (charsOf ra).length ++
        (c :: cs).drop rb.pattern.toks.length) := by
    conv_lhs => rw [hdecB]
    rw [← List.append_assoc, ← hBdecomp]
  have hnomA : ∀ (X : List Char) j,
      j < ((charsOf rb).drop (charsOf ra).length).length →
      matchAtB ra.pattern
        (((charsOf rb).drop (charsOf ra).length ++ X).drop j) = false := by
    intro X
    exact no_match_in_marker_free (ruleSafe_marker hsA) hsfxfree X
  have hdropA : ∀ X : List Char,
      (charsOf ra ++ X).drop ra.pattern.toks.length = X := by
    intro X
    rw [← hlenA]
    exact List.drop_left _ _
  have hsubA : subst ra.pattern ra.replacement (c :: cs) =
      rb.replacement ++ subst ra.pattern ra.replacement
        ((c :: cs).drop rb.pattern.toks.length) := by
    rw [subst_match_general ra.replacement hneA hma]
    conv_lhs => rw [hdecAB, hdropA]
    rw [subst_append_nomatch (hnomA _), hrepeq, List.append_assoc]
  have hcntA : countB ra.pattern (c :: cs) =
      1 + countB ra.pattern ((c :: cs).drop rb.pattern.toks.length) := by
    rw [countB_match_general hneA hma]
    conv_lhs => rw [hdecAB, hdropA]
    rw [countB_append_nomatch (hnomA _)]
  have hsubB : subst rb.pattern rb.replacement (c :: cs) =
      ra.replacement ++ ((charsOf rb).drop (charsOf ra).length ++
        subst rb.pattern rb.replacement
          ((c :: cs).drop rb.pattern.toks.length)) := by
    rw [subst_match_general rb.replacement hneB hmb, hrepeq, List.append_assoc]
  have hcntB : countB rb.pattern (c :: cs) =
      1 + countB rb.pattern ((c :: cs).drop rb.pattern.toks.length) :=
    countB_match_general hneB hmb
  have hrestlen : ((c :: cs).drop rb.pattern.toks.length).length ≤ n := by
    have hkb : 0 < rb.pattern.toks.length := by
      cases hx : rb.pattern.toks with
      | nil => exact absurd hx hneB
      | cons t ts => simp
    simp only [List.length_drop, List.length_cons]
    simp only [List.length_cons] at hl
    omega
  have hOverA : ∀ X : List Char,
      subst ra.pattern ra.replacement (ra.replacement ++ X) =
        ra.replacement ++ subst ra.pattern ra.replacement X ∧
      countB ra.pattern (ra.replacement ++ X) = countB ra.pattern X := by
    intro X
    exact subst_over_safe_rep (p := ⟨ra.pattern, ra.replacement⟩)
      (q := ⟨ra.pattern, ra.replacement⟩) hsA hsA X
  have hOverB : ∀ X : List Char,
      subst rb.pattern rb.replacement (rb.replacement ++ X) =
        rb.replacement ++ subst rb.pattern rb.replacement X ∧
      countB rb.pattern (rb.replacement ++ X) = countB rb.pattern X := by
    intro X
    exact subst_over_safe_rep (p := ⟨rb.pattern, rb.replacement⟩)
      (q := ⟨rb.pattern, rb.replacement⟩) hsB hsB X
  obtain ⟨ihline, ihcount⟩ := IH _ hrestlen
  constructor
  · rw [hsubB, hsubA]
    rw [(hOverA _).1]
    rw [subst_append_nomatch (hnomA _)]
    rw [(hOverB _).1]
    rw [ihline, hrepeq, List.append_assoc]
  · rw [hsubB, hsubA, hcntA, hcntB]
    rw [(hOverA _).2]
    rw [countB_append_nomatch (hnomA _)]
    rw [(hOverB _).2]
    omega

/-- Any two direct-mapping substitutions commute, and the count of one
pattern is unchanged by first applying the other (in the paired sense). -/
theorem comm_core :
    ∀ (n : Nat) (ra rb : ReplacementRule), ra ∈ DIRECT_MAPPINGS →
      rb ∈ DIRECT_MAPPINGS → ∀ l : List Char, l.length ≤ n →
      subst ra.pattern ra.replacement (subst rb.pattern rb.replacement l) =
        subst rb.pattern rb.replacement (subst ra.pattern ra.replacement l) ∧
      countB rb.pattern l + countB ra.pattern (subst rb.pattern rb.replacement l) =
        countB ra.pattern l + countB rb.pattern (subst ra.pattern ra.replacement l) := by
  intro n
  induction n with
  | zero =>
    intro ra rb ha hb l hl
    have hnil : l = [] := List.eq_nil_of_length_eq_zero (Nat.le_zero.mp hl)
    subst hnil
    simp [subst_nil, countB_nil]
  | succ n ih =>
    intro ra rb ha hb l hl
    cases l with
    | nil => simp [subst_nil, countB_nil]
    | cons c cs =>
      have hsA := allMRules_safe _ (mem_allMRules_direct ha)
      have hsB := allMRules_safe _ (mem_allMRules_direct hb)
      have IHab : ∀ z : List Char, z.length ≤ n →
          subst ra.pattern ra.replacement (subst rb.pattern rb.replacement z) =
            subst rb.pattern rb.replacement (subst ra.pattern ra.replacement z) ∧
          countB rb.pattern z +
              countB ra.pattern (subst rb.pattern rb.replacement z) =
            countB ra.pattern z +
              countB rb.pattern (subst ra.pattern ra.replacement z) :=
        fun z hz => ih ra rb ha hb z hz
      have IHba : ∀ z : List Char, z.length ≤ n →
          subst rb.pattern rb.replacement (subst ra.pattern ra.replacement z) =
            subst ra.pattern ra.replacement (subst rb.pattern rb.replacement z) ∧
          countB ra.pattern z +
              countB rb.pattern (subst ra.pattern ra.replacement z) =
            countB rb.pattern z +
              countB ra.pattern (subst rb.pattern rb.replacement z) :=
        fun z hz => ⟨(ih ra rb ha hb z hz).1.symm, (ih ra rb ha hb z hz).2.symm⟩
      cases hma : matchAtB ra.pattern (c :: cs) with
      | false =>
        cases hmb : matchAtB rb.pattern (c :: cs) with
        | false =>
          have hcslen : cs.length ≤ n := by
            simp only [List.length_cons] at hl
            omega
          obtain ⟨ihline, ihcount⟩ := IHab cs hcslen
          have hsb : subst rb.pattern rb.replacement (c :: cs) =
              c :: subst rb.pattern rb.replacement cs :=
            subst_cons_nomatch1 rb.replacement hmb
          have hsa2 : subst ra.pattern ra.replacement (c :: cs) =
              c :: subst ra.pattern ra.replacement cs :=
            subst_cons_nomatch1 ra.replacement hma
          have hkeepA : matchAtB ra.pattern
              (subst rb.pattern rb.replacement (c :: cs)) = false := by
            exact matchAt_head_preserve (p := ⟨ra.pattern, ra.replacement⟩)
              (q := ⟨rb.pattern, rb.replacement⟩) hsA hsB hma
          have hkeepB : matchAtB rb.pattern
              (subst ra.pattern ra.replacement (c :: cs)) = false := by
            exact matchAt_head_preserve (p := ⟨rb.pattern, rb.replacement⟩)
              (q := ⟨ra.pattern, ra.replacement⟩) hsB hsA hmb
          rw [hsb] at hkeepA
          rw [hsa2] at hkeepB
          constructor
          · rw [hsb, hsa2, subst_cons_nomatch1 ra.replacement hkeepA,
              subst_cons_nomatch1 rb.replacement hkeepB, ihline]
          · rw [hsb, hsa2, countB_cons_nomatch1 hkeepA,
              countB_cons_nomatch1 hkeepB, countB_cons_nomatch1 hma,
              countB_cons_nomatch1 hmb]
            omega
        | true =>
          have h := comm_one rb ra hb ha n IHba c cs hl hmb hma
          exact ⟨h.1.symm, h.2.symm⟩
      | true =>
        cases hmb : matchAtB rb.pattern (c :: cs) with
        | false => exact comm_one ra rb ha hb n IHab c cs hl hma hmb
        | true =>
          by_cases heq : ra = rb
          · subst heq
            exact ⟨rfl, rfl⟩
          · have hpa : charsOf ra <+: (c :: cs) :=
              matchAt_lit_prefix (direct_isLit ra ha) hma
            have hpb : charsOf rb <+: (c :: cs) :=
              matchAt_lit_prefix (direct_isLit rb hb) hmb
            cases List.prefix_or_prefix_of_prefix hpa hpb with
            | inl hab =>
              exact comm_both ra rb ha hb heq
                ( List.isPrefixOf_iff_prefix.mpr hab) n IHab c cs hl hma hmb
            | inr hba =>
              have h := comm_both rb ra hb ha (fun hc => heq hc.symm)
                ( List.isPrefixOf_iff_prefix.mpr hba) n IHba c cs hl hmb hma
              exact ⟨h.1.symm, h.2.symm⟩

/-- `directStep` always equals the unconditional substitute-and-count pair. -/
theorem directStep_eq (s : List Char × Nat) (r : ReplacementRule)
    (hne : r.pattern.toks ≠ []) :
    directStep s r =
      (subst r.pattern r.replacement s.1, s.2 + countB r.pattern s.1) := by
  show (if 0 < countB r.pattern s.1
      then (subst r.pattern r.replacement s.1, s.2 + countB r.pattern s.1)
      else s) = _
  by_cases h : 0 < countB r.pattern s.1
  · rw [if_pos h]
  · rw [if_neg h]
    have hc : countB r.pattern s.1 = 0 := by omega
    have hnm : hasMatchB r.pattern s.1 = false := by
      by_contra hcon
      rw [Bool.not_eq_false] at hcon
      have hp := countB_pos_of_hasMatch hne s.1 hcon
      omega
    rw [subst_of_not_hasMatch hnm, hc, Nat.add_zero]

/-- Two direct-mapping steps commute as state transformers. -/
theorem directStep_comm {ra rb : ReplacementRule}
    (ha : ra ∈ DIRECT_MAPPINGS) (hb : rb ∈ DIRECT_MAPPINGS)
    (s : List Char × Nat) :
    directStep (directStep s ra) rb = directStep (directStep s rb) ra := by
  have hneA : ra.pattern.toks ≠ [] := direct_toks_ne ha
  have hneB : rb.pattern.toks ≠ [] := direct_toks_ne hb
  obtain ⟨h1, h2⟩ := comm_core s.1.length ra rb ha hb s.1 (Nat.le_refl _)
  have e1 : directStep (directStep s ra) rb =
      (subst rb.pattern rb.replacement (subst ra.pattern ra.replacement s.1),
        s.2 + countB ra.pattern s.1 +
          countB rb.pattern (subst ra.pattern ra.replacement s.1)) := by
    rw [directStep_eq s ra hneA]
    exact directStep_eq _ rb hneB
  have e2 : directStep (directStep s rb) ra =
      (subst ra.pattern ra.replacement (subst rb.pattern rb.replacement s.1),
        s.2 + countB rb.pattern s.1 +
          countB ra.pattern (subst rb.pattern rb.replacement s.1)) := by
    rw [directStep_eq s rb hneB]
    exact directStep_eq _ ra hneA
  rw [e1, e2]
  simp only [Prod.mk.injEq]
  exact ⟨h1.symm, by omega⟩

/-- C2: distinct direct-mapping rules never match the same substring
span (same start position and same length), and applying the 25 direct
mappings in any order — any permutation of the table's insertion order —
yields the same rewritten line and the same total replacement count. -/
theorem C2_direct_mappings_order_independent :
    (∀ ra ∈ DIRECT_MAPPINGS, ∀ rb ∈ DIRECT_MAPPINGS,
      ∀ (l : List Char) (i : Nat),
        matchAtB ra.pattern (l.drop i) = true →
        matchAtB rb.pattern (l.drop i) = true →
        ra.pattern.toks.length = rb.pattern.toks.length →
        ra = rb) ∧
    (∀ ord : List ReplacementRule, List.Perm DIRECT_MAPPINGS ord →
      ∀ l : List Char, ord.foldl directStep (l, 0) = apply_direct_mappings l) := by
  constructor
  · intro ra ha rb hb l i hma hmb hlen
    have hpa : charsOf ra <+: l.drop i :=
      matchAt_lit_prefix (direct_isLit ra ha) hma
    have hpb : charsOf rb <+: l.drop i :=
      matchAt_lit_prefix (direct_isLit rb hb) hmb
    have hclen : (charsOf ra).length = (charsOf rb).length := by
      rw [charsOf_length, charsOf_length, hlen]
    have hceq : charsOf ra = charsOf rb := by
      rw [List.prefix_iff_eq_take.mp hpa, List.prefix_iff_eq_take.mp hpb, hclen]
    exact direct_injective ra ha rb hb hceq
  · intro ord hperm l
    exact (hperm.foldl_eq' (fun x hx y hy b => directStep_comm hx hy b) (l, 0)).symm

/-- Witness for C2 at concrete inputs: the span-exclusivity instance at
the `error` rule on a concrete line, and order-independence for the
fully reversed table on a concrete line exercising the
`error`/`errorLight` overlap. -/
theorem C2_direct_mappings_witness :
    mkDirect "error" "error" "SemanticColors.error" "Error color" =
      mkDirect "error" "error" "SemanticColors.error" "Error color" ∧
    DIRECT_MAPPINGS.reverse.foldl directStep
        (cl "x = AppColors.errorLight", 0) =
      apply_direct_mappings (cl "x = AppColors.errorLight") := by
  constructor
  · exact C2_direct_mappings_order_independent.1
      (mkDirect "error" "error" "SemanticColors.error" "Error color") (by decide)
      (mkDirect "error" "error" "SemanticColors.error" "Error color") (by decide)
      (cl "AppColors.error ") 0 (by decide) (by decide) rfl
  · exact C2_direct_mappings_order_independent.2
      DIRECT_MAPPINGS.reverse (List.reverse_perm DIRECT_MAPPINGS).symm
      (cl "x = AppColors.errorLight")
